import Mathlib

/-!
# htmlgo: the element builder and its serialisation

A shallow embedding of `tag.go`, `utils.go` and `api.go`.

* A Go `string` and a `[]byte` are the list of their bytes (`Bytes`), a byte being a
  natural number; string literals are written `lit "..."` (their UTF-8 bytes).
* A method with a pointer receiver that mutates the receiver takes the old value and
  returns the new one.  `MarshalHTML` therefore returns the component after the call
  (it materialises class and style into the attribute list), the buffer after the call
  and the way the call ended (`Exit`: returned nil, returned an error, panicked).
* The `context.Context` argument is never inspected by the code and is left out.
* Library routines (`strings.Split`, `strings.Join`, `strings.TrimSpace`, `strings.Trim`,
  `strconv`, `html.EscapeString`, `sonic.Marshal`) are modelled from their documentation.
-/

namespace Htmlgo

/-! ## Values -/

/-- A Go string or byte slice, as the sequence of its bytes. -/
abbrev Bytes := List Nat

/-- UTF-8 bytes of a string literal. -/
def lit (s : String) : Bytes :=
  (s.toList.flatMap String.utf8EncodeChar).map UInt8.toNat

/-- A Go error value, identified by its message. -/
structure GoError where
  msg : Bytes
deriving DecidableEq, Repr

/-- Outcome of `sonic.Marshal` on a value: its JSON text, or an error. -/
inductive Marshaled where
  | json (text : Bytes)
  | fail (err : GoError)
deriving DecidableEq, Repr

/-- An `interface{}` attribute value, by the arm of the type switch of `MarshalHTML` that
takes it.  A float carries the text `strconv.FormatFloat(v, 'f', -1, bits)` gives for it;
a value of any other type carries what `sonic.Marshal` gives for it. -/
inductive AttrValue where
  | str (v : Bytes)
  | bytes (v : Bytes)
  | runes (v : List Int)
  | int (v : Int)
  | uint (v : Nat)
  | float (formatted : Bytes)
  | bool (v : Bool)
  | other (marshal : Marshaled)
deriving DecidableEq, Repr

/-- The value a panic carries. -/
inductive PanicValue where
  /-- From `Attr`: the key at an even position was not a string. -/
  | attrKey (v : AttrValue)
  /-- From `panic(err)` in `JSONString` and `MustString`. -/
  | error (err : GoError)
  /-- A run-time panic (index out of range). -/
  | runtime
deriving DecidableEq, Repr

/-- How a call ended: it returned nil, returned a non-nil error, or panicked. -/
inductive Exit where
  | nil
  | error (err : GoError)
  | panic (p : PanicValue)
deriving DecidableEq, Repr

/-! ## Library routines -/

/-- Go `strings.Split(s, sep)` for a separator of one byte: the pieces of `s` between the
occurrences of `sep` (one more piece than there are occurrences). -/
def Split : Bytes → Nat → List Bytes
  | [], _ => [[]]
  | c :: rest, sep =>
    if c = sep then [] :: Split rest sep
    else
      match Split rest sep with
      | [] => [[c]]
      | p :: ps => (c :: p) :: ps

/-- Go `strings.Join(elems, sep)`. -/
def Join : List Bytes → Bytes → Bytes
  | [], _ => []
  | [a], _ => a
  | a :: b :: rest, sep => a ++ sep ++ Join (b :: rest) sep

/-- The six ASCII white-space bytes: tab, line feed, vertical tab, form feed, carriage
return, space. -/
def isAsciiSpace (b : Nat) : Bool :=
  b = 0x09 || b = 0x0A || b = 0x0B || b = 0x0C || b = 0x0D || b = 0x20

/-- Bytes `b0 b1` encode U+0085 or U+00A0. -/
def isSpace2 (b0 b1 : Nat) : Bool :=
  b0 = 0xC2 && (b1 = 0x85 || b1 = 0xA0)

/-- Bytes `b0 b1 b2` encode one of U+1680, U+2000..U+200A, U+2028, U+2029, U+202F, U+205F,
U+3000. -/
def isSpace3 (b0 b1 b2 : Nat) : Bool :=
  (b0 = 0xE1 && b1 = 0x9A && b2 = 0x80) ||
  (b0 = 0xE2 && b1 = 0x80 && ((0x80 ≤ b2 && b2 ≤ 0x8A) || b2 = 0xA8 || b2 = 0xA9 || b2 = 0xAF)) ||
  (b0 = 0xE2 && b1 = 0x81 && b2 = 0x9F) ||
  (b0 = 0xE3 && b1 = 0x80 && b2 = 0x80)

/-- Drops from the head of a string, as long as there is one, a group of one, two or three
bytes that `one`, `two` or `three` accepts. -/
def dropGroups (one : Nat → Bool) (two : Nat → Nat → Bool) (three : Nat → Nat → Nat → Bool) :
    Bytes → Bytes
  | [] => []
  | b0 :: rest =>
    if one b0 then dropGroups one two three rest
    else
      match rest with
      | [] => b0 :: rest
      | b1 :: rest2 =>
        if two b0 b1 then dropGroups one two three rest2
        else
          match rest2 with
          | [] => b0 :: rest
          | b2 :: rest3 =>
            if three b0 b1 b2 then dropGroups one two three rest3 else b0 :: rest

/-- The string starts with a group of one, two or three bytes that `one`, `two` or `three`
accepts. -/
def headGroup (one : Nat → Bool) (two : Nat → Nat → Bool) (three : Nat → Nat → Nat → Bool) :
    Bytes → Bool
  | [] => false
  | [b0] => one b0
  | [b0, b1] => one b0 || two b0 b1
  | b0 :: b1 :: b2 :: _ => one b0 || two b0 b1 || three b0 b1 b2

/-- Removes the leading white space (`unicode.IsSpace`) of a string: as long as the string
starts with the UTF-8 encoding of a white-space character, that encoding is dropped.  Bytes
that are not part of such an encoding are never white space. -/
def TrimLeftSpace (s : Bytes) : Bytes :=
  dropGroups isAsciiSpace isSpace2 isSpace3 s

/-- Removes the trailing white space of a string: as long as the string ends with the
UTF-8 encoding of a white-space character, that encoding is dropped.  The string is read
back to front, `c0` being the last byte of a group. -/
def TrimRightSpace (s : Bytes) : Bytes :=
  (dropGroups isAsciiSpace (fun c0 c1 => isSpace2 c1 c0) (fun c0 c1 c2 => isSpace3 c2 c1 c0)
    s.reverse).reverse

/-- The string starts with the UTF-8 encoding of a white-space character. -/
def startsWithSpace (s : Bytes) : Bool :=
  headGroup isAsciiSpace isSpace2 isSpace3 s

/-- The string ends with the UTF-8 encoding of a white-space character. -/
def endsWithSpace (s : Bytes) : Bool :=
  headGroup isAsciiSpace (fun c0 c1 => isSpace2 c1 c0) (fun c0 c1 c2 => isSpace3 c2 c1 c0)
    s.reverse

/-- Go `strings.TrimSpace(s)`: `s` without its leading and trailing white space, as
defined by Unicode. -/
def TrimSpace (s : Bytes) : Bytes :=
  TrimRightSpace (TrimLeftSpace s)

/-- Go `strings.Trim(s, cutset)` for a cutset of one byte: `s` without its leading and
trailing occurrences of that byte. -/
def Trim (s : Bytes) (c : Nat) : Bytes :=
  ((s.dropWhile (fun b => b = c)).reverse.dropWhile (fun b => b = c)).reverse

/-- Decimal digits of a natural number (`strconv.FormatUint(v, 10)`). -/
def FormatUint (v : Nat) : Bytes :=
  (Nat.toDigits 10 v).map Char.toNat

/-- Decimal text of an integer (`strconv.FormatInt(v, 10)`, `strconv.Itoa`). -/
def FormatInt (v : Int) : Bytes :=
  if v < 0 then 45 :: FormatUint (-v).toNat else FormatUint v.toNat

/-- UTF-8 encoding of one rune in the conversion `string([]rune)`: a value that is not a
valid code point is encoded as U+FFFD. -/
def encodeRune (r : Int) : Bytes :=
  if r < 0 ∨ 0x10FFFF < r ∨ (0xD800 ≤ r ∧ r ≤ 0xDFFF) then [0xEF, 0xBF, 0xBD]
  else
    let n := r.toNat
    if n < 0x80 then [n]
    else if n < 0x800 then [0xC0 + n / 0x40, 0x80 + n % 0x40]
    else if n < 0x10000 then [0xE0 + n / 0x1000, 0x80 + n / 0x40 % 0x40, 0x80 + n % 0x40]
    else [0xF0 + n / 0x40000, 0x80 + n / 0x1000 % 0x40, 0x80 + n / 0x40 % 0x40, 0x80 + n % 0x40]

/-- Go `html.EscapeString`: the five characters less-than, greater-than, ampersand,
apostrophe and double quote are replaced by entities. -/
def EscapeString : Bytes → Bytes
  | [] => []
  | c :: rest =>
    (if c = 60 then lit "&lt;"
     else if c = 62 then lit "&gt;"
     else if c = 38 then lit "&amp;"
     else if c = 39 then lit "&#39;"
     else if c = 34 then lit "&#34;"
     else [c]) ++ EscapeString rest

/-! ## tag.go: the builder -/

/-- Go `tagAttr`. -/
structure tagAttr where
  key : Bytes
  value : AttrValue
deriving DecidableEq, Repr

/-- Go `HTMLTagBuilder`; `χ` is the type of components (`HTMLComponent` below), a nil
child being `none`. -/
structure HTMLTagBuilder (χ : Type) where
  tag : Bytes
  omitEndTag : Bool
  attrs : List tagAttr
  styles : List Bytes
  classNames : List Bytes
  children : List (Option χ)

/-- Go `Tag(tag)`. -/
def Tag {χ : Type} (tag : Bytes) : HTMLTagBuilder χ :=
  { tag := tag, omitEndTag := false, attrs := [], styles := [], classNames := [], children := [] }

/-- Go `(*HTMLTagBuilder).OmitEndTag`. -/
def HTMLTagBuilder.OmitEndTag {χ : Type} (b : HTMLTagBuilder χ) : HTMLTagBuilder χ :=
  { b with omitEndTag := true }

/-- Go `(*HTMLTagBuilder).Children`. -/
def HTMLTagBuilder.Children {χ : Type} (b : HTMLTagBuilder χ) (comps : List (Option χ)) :
    HTMLTagBuilder χ :=
  { b with children := comps }

/-- The loop of `SetAttr` over the attribute list: the first entry with key `k` gets the
value `v` and the loop returns; when no entry has the key, the pair is appended. -/
def setAttrList (k : Bytes) (v : AttrValue) : List tagAttr → List tagAttr
  | [] => [⟨k, v⟩]
  | a :: rest =>
    if a.key = k then { a with value := v } :: rest
    else a :: setAttrList k v rest

/-- Go `(*HTMLTagBuilder).SetAttr`. -/
def HTMLTagBuilder.SetAttr {χ : Type} (b : HTMLTagBuilder χ) (k : Bytes) (v : AttrValue) :
    HTMLTagBuilder χ :=
  { b with attrs := setAttrList k v b.attrs }

/-- The loop of `Attr` over the (padded) arguments, two at a time.  The result is the
builder when the loop stops and the panic it stopped with, if any. -/
def attrLoop {χ : Type} (b : HTMLTagBuilder χ) : List AttrValue → HTMLTagBuilder χ × Option PanicValue
  | [] => (b, none)
  | [_] => (b, some .runtime)
  | k :: v :: rest =>
    match k with
    | .str key => attrLoop (b.SetAttr key v) rest
    | _ => (b, some (.attrKey k))

/-- Go `(*HTMLTagBuilder).Attr`: an argument list of odd length is padded with the empty
string first. -/
def HTMLTagBuilder.Attr {χ : Type} (b : HTMLTagBuilder χ) (vs : List AttrValue) :
    HTMLTagBuilder χ × Option PanicValue :=
  attrLoop b (if vs.length % 2 ≠ 0 then vs ++ [.str []] else vs)

/-- Go `(*HTMLTagBuilder).AttrIf`. -/
def HTMLTagBuilder.AttrIf {χ : Type} (b : HTMLTagBuilder χ) (key value : AttrValue) (add : Bool) :
    HTMLTagBuilder χ × Option PanicValue :=
  if !add then (b, none) else b.Attr [key, value]

/-- The inner loop of `addClass` over the pieces of one name. -/
def addClassPieces (classNames : List Bytes) : List Bytes → List Bytes
  | [] => classNames
  | piece :: rest =>
    let tin := TrimSpace piece
    if tin.length > 0 then addClassPieces (classNames ++ [tin]) rest
    else addClassPieces classNames rest

/-- The outer loop of `addClass` over the names. -/
def addClassNames (classNames : List Bytes) : List Bytes → List Bytes
  | [] => classNames
  | n :: rest => addClassNames (addClassPieces classNames (Split n 32)) rest

/-- Go `(*HTMLTagBuilder).addClass`. -/
def HTMLTagBuilder.addClass {χ : Type} (b : HTMLTagBuilder χ) (names : List Bytes) :
    HTMLTagBuilder χ :=
  { b with classNames := addClassNames b.classNames names }

/-- Go `(*HTMLTagBuilder).Class`. -/
def HTMLTagBuilder.Class {χ : Type} (b : HTMLTagBuilder χ) (names : List Bytes) :
    HTMLTagBuilder χ :=
  b.addClass names

/-- Go `(*HTMLTagBuilder).ClassIf`. -/
def HTMLTagBuilder.ClassIf {χ : Type} (b : HTMLTagBuilder χ) (name : Bytes) (add : Bool) :
    HTMLTagBuilder χ :=
  if !add then b else b.addClass [name]

/-- Go `(*HTMLTagBuilder).addStyle`. -/
def HTMLTagBuilder.addStyle {χ : Type} (b : HTMLTagBuilder χ) (v : Bytes) : HTMLTagBuilder χ :=
  if v.length > 0 then { b with styles := b.styles ++ [v] } else b

/-- Go `(*HTMLTagBuilder).Style`. -/
def HTMLTagBuilder.Style {χ : Type} (b : HTMLTagBuilder χ) (v : Bytes) : HTMLTagBuilder χ :=
  b.addStyle (Trim v 59)

/-- Go `(*HTMLTagBuilder).StyleIf`. -/
def HTMLTagBuilder.StyleIf {χ : Type} (b : HTMLTagBuilder χ) (v : Bytes) (add : Bool) :
    HTMLTagBuilder χ :=
  if !add then b else b.Style v

/-- Go `appendEscapeAttr`: appends `s` to `buf`, an apostrophe (byte 39) as `&#39;`. -/
def appendEscapeAttr (buf : Bytes) : Bytes → Bytes
  | [] => buf
  | c :: rest =>
    if c = 39 then appendEscapeAttr (buf ++ lit "&#39;") rest
    else appendEscapeAttr (buf ++ [c]) rest

/-- Go `JSONString`: the JSON text of the value, a panic when `sonic.Marshal` fails. -/
def JSONString (m : Marshaled) : Except PanicValue Bytes :=
  match m with
  | .json text => .ok text
  | .fail err => .error (.error err)

/-- The variables the type switch of `MarshalHTML` sets. -/
structure Coerced where
  val : Bytes
  isBool : Bool
  boolVal : Bool
deriving DecidableEq, Repr

/-- The type switch of `MarshalHTML` on an attribute value. -/
def coerce : AttrValue → Except PanicValue Coerced
  | .str v => .ok ⟨v, false, false⟩
  | .bytes v => .ok ⟨v, false, false⟩
  | .runes v => .ok ⟨v.flatMap encodeRune, false, false⟩
  | .int v => .ok ⟨FormatInt v, false, false⟩
  | .uint v => .ok ⟨FormatUint v, false, false⟩
  | .float formatted => .ok ⟨formatted, false, false⟩
  | .bool v => .ok ⟨[], true, v⟩
  | .other m =>
    match JSONString m with
    | .ok text => .ok ⟨text, false, false⟩
    | .error p => .error p

/-- The attribute loop of `MarshalHTML`: the buffer when the loop stops, and the panic of
`JSONString` it stopped with, if any. -/
def writeAttrs : List tagAttr → Bytes → Bytes × Option PanicValue
  | [], buf => (buf, none)
  | a :: rest, buf =>
    match coerce a.value with
    | .error p => (buf, some p)
    | .ok c =>
      if c.val.length = 0 ∧ ¬ c.isBool then writeAttrs rest buf
      else if c.isBool ∧ ¬ c.boolVal then writeAttrs rest buf
      else
        let buf1 := buf ++ [32]
        if c.isBool ∧ c.boolVal then writeAttrs rest (appendEscapeAttr buf1 a.key)
        else
          writeAttrs rest (appendEscapeAttr (appendEscapeAttr buf1 a.key ++ [61, 39]) c.val ++ [39])

/-- The first statements of `MarshalHTML`: the class names and the styles are joined and
set as the attributes `class` and `style`. -/
def materialize {χ : Type} (b : HTMLTagBuilder χ) : HTMLTagBuilder χ × Option PanicValue :=
  let cls := TrimSpace (Join b.classNames (lit " "))
  match (if cls.length > 0 then b.Attr [.str (lit "class"), .str cls] else (b, none)) with
  | (b1, some p) => (b1, some p)
  | (b1, none) =>
    let styles := TrimSpace (Join b1.styles (lit "; "))
    if styles.length > 0 then b1.Attr [.str (lit "style"), .str (styles ++ lit ";")] else (b1, none)

/-! ## api.go, utils.go: components -/

/-- The implementations of the Go interface `HTMLComponent`: `RawHTML`, `HTMLComponents`,
`*HTMLTagBuilder` and `ComponentFunc`.  A `ComponentFunc` is a function from the buffer
it is given to the buffer it leaves and the way it ends. -/
inductive HTMLComponent where
  | raw (s : Bytes)
  | comps (hcs : List (Option HTMLComponent))
  | tag (b : HTMLTagBuilder HTMLComponent)
  | func (f : Bytes → Bytes × Exit)

/-- State after a call of `MarshalHTML`: the receiver, the buffer, and how the call ended. -/
structure Rendered (α : Type) where
  node : α
  buf : Bytes
  exit : Exit

mutual
/-- Go `MarshalHTML` of `RawHTML`, `HTMLComponents`, `*HTMLTagBuilder` and `ComponentFunc`. -/
def MarshalHTML : HTMLComponent → Bytes → Rendered HTMLComponent
  | .raw s, buf => ⟨.raw s, buf ++ s, .nil⟩
  | .comps hcs, buf =>
    let r := marshalEach hcs buf
    ⟨.comps r.node, r.buf, r.exit⟩
  | .func f, buf => ⟨.func f, (f buf).1, (f buf).2⟩
  | .tag ⟨tag, omitEndTag, attrs, styles, classNames, children⟩, buf =>
    match materialize (⟨tag, omitEndTag, attrs, styles, classNames, children⟩ : HTMLTagBuilder HTMLComponent) with
    | (b1, some p) => ⟨.tag b1, buf, .panic p⟩
    | (b1, none) =>
      let buf1 := buf ++ [10, 60] ++ b1.tag
      match writeAttrs b1.attrs buf1 with
      | (buf2, some p) => ⟨.tag b1, buf2, .panic p⟩
      | (buf2, none) =>
        let buf3 := buf2 ++ [62]
        if b1.omitEndTag then ⟨.tag b1, buf3 ++ [10], .nil⟩
        else
          -- the children are those of the receiver: `Attr` leaves them alone
          let r := marshalEach children buf3
          match r.exit with
          | .nil => ⟨.tag { b1 with children := r.node }, r.buf ++ [60, 47] ++ b1.tag ++ [62, 10], .nil⟩
          | e => ⟨.tag { b1 with children := r.node }, r.buf, e⟩
/-- The loop over the children in `(*HTMLTagBuilder).MarshalHTML` and over the members in
`HTMLComponents.MarshalHTML` (the same statements in both): a nil entry is skipped, the
first entry that does not return nil ends the loop. -/
def marshalEach : List (Option HTMLComponent) → Bytes → Rendered (List (Option HTMLComponent))
  | [], buf => ⟨[], buf, .nil⟩
  | none :: rest, buf =>
    let r := marshalEach rest buf
    ⟨none :: r.node, r.buf, r.exit⟩
  | some c :: rest, buf =>
    let r := MarshalHTML c buf
    match r.exit with
    | .nil =>
      let r2 := marshalEach rest r.buf
      ⟨some r.node :: r2.node, r2.buf, r2.exit⟩
    | e => ⟨some r.node :: rest, r.buf, e⟩
end

/-- Go `Text(text)`. -/
def Text (text : Bytes) : HTMLComponent :=
  .raw (EscapeString text)

/-- Go `(*HTMLTagBuilder).Text`. -/
def HTMLTagBuilder.Text (b : HTMLTagBuilder HTMLComponent) (v : Bytes) :
    HTMLTagBuilder HTMLComponent :=
  b.Children [some (Htmlgo.Text v)]

/-- Go `Components(comps...)`. -/
def Components (comps : List (Option HTMLComponent)) : HTMLComponent :=
  .comps comps

/-- Go `Fprint(w, root, ctx)`; `write buf` is how `w.Write(buf)` ends. -/
def Fprint (write : Bytes → Exit) (root : Option HTMLComponent) : Exit :=
  match root with
  | none => .nil
  | some c =>
    let r := MarshalHTML c []
    match r.exit with
    | .nil => write r.buf
    | e => e

/-- Go `MustString(root, ctx)`: the rendered string, or the panic the call ends with. -/
def MustString (root : HTMLComponent) : Except PanicValue Bytes :=
  let r := MarshalHTML root []
  match r.exit with
  | .nil => .ok r.buf
  | .error err => .error (.error err)
  | .panic p => .error p

/-- The attribute list of the receiver after the first statements of `MarshalHTML`. -/
def materializedAttrs {χ : Type} (b : HTMLTagBuilder χ) : List tagAttr :=
  (materialize b).1.attrs

/-- The bytes the attribute loop of `MarshalHTML` writes for the receiver. -/
def attrBytes {χ : Type} (b : HTMLTagBuilder χ) : Bytes :=
  (writeAttrs (materializedAttrs b) []).1

mutual
/-- The component is built from elements, raw-text nodes and node lists only: no
`ComponentFunc` occurs in it. -/
def noFunc : HTMLComponent → Bool
  | .raw _ => true
  | .comps hcs => noFuncEach hcs
  | .tag ⟨_, _, _, _, _, children⟩ => noFuncEach children
  | .func _ => false
/-- No `ComponentFunc` occurs in the non-nil entries of the list. -/
def noFuncEach : List (Option HTMLComponent) → Bool
  | [] => true
  | none :: rest => noFuncEach rest
  | some c :: rest => noFunc c && noFuncEach rest
end

/-- A render `f` only appends: whatever the buffer, it leaves the same receiver, ends the
same way and appends the same bytes as on the empty buffer. -/
def Framed {α : Type} (f : Bytes → Rendered α) : Prop :=
  ∀ buf, f buf = ⟨(f []).node, buf ++ (f []).buf, (f []).exit⟩

/-- A render `f` is repeatable with `g` the render of the receiver it leaves: the second
render leaves the receiver as the first left it, ends the same way and appends the same
bytes. -/
def Repeatable {α : Type} (f : Bytes → Rendered α) (g : α → Bytes → Rendered α) : Prop :=
  ∀ buf, g (f []).node buf = ⟨(f []).node, buf ++ (f []).buf, (f []).exit⟩

/-- The class tokens of one name, in the spec's words: the fragments between spaces, each
trimmed of surrounding white space, the empty ones dropped. -/
def classTokens (name : Bytes) : List Bytes :=
  ((Split name 32).map TrimSpace).filter (fun t => decide (t.length > 0))

/-- A clean token: not empty, without a space byte, without leading or trailing white
space. -/
def CleanToken (t : Bytes) : Prop :=
  t ≠ [] ∧ 32 ∉ t ∧ startsWithSpace t = false ∧ endsWithSpace t = false

/-- No two adjacent bytes of the string are both spaces. -/
def NoDoubleSpace (s : Bytes) : Prop :=
  List.Chain' (fun a b => ¬ (a = 32 ∧ b = 32)) s

/-- The value is a Go string (the type assertion `vs[i].(string)` of `Attr` succeeds). -/
def AttrValue.isStr : AttrValue → Bool
  | .str _ => true
  | _ => false

/-- The value of the first entry of an attribute list with the key `k`, if there is one. -/
def lookupAttr (k : Bytes) (attrs : List tagAttr) : Option AttrValue :=
  (attrs.find? (fun a => decide (a.key = k))).map tagAttr.value

/-- A call of a method of `*HTMLTagBuilder` on an element. -/
inductive BuilderCall where
  | SetAttr (k : Bytes) (v : AttrValue)
  | Attr (vs : List AttrValue)
  | AttrIf (key value : AttrValue) (add : Bool)
  | Class (names : List Bytes)
  | ClassIf (name : Bytes) (add : Bool)
  | Style (v : Bytes)
  | StyleIf (v : Bytes) (add : Bool)
  | Children (comps : List (Option HTMLComponent))
  | OmitEndTag
  | MarshalHTML (buf : Bytes)

/-- The element after one call (for `Attr` and `MarshalHTML`: when the call returns or
panics). -/
def applyCall (b : HTMLTagBuilder HTMLComponent) : BuilderCall → HTMLTagBuilder HTMLComponent
  | .SetAttr k v => b.SetAttr k v
  | .Attr vs => (b.Attr vs).1
  | .AttrIf key value add => (b.AttrIf key value add).1
  | .Class names => b.Class names
  | .ClassIf name add => b.ClassIf name add
  | .Style v => b.Style v
  | .StyleIf v add => b.StyleIf v add
  | .Children comps => b.Children comps
  | .OmitEndTag => b.OmitEndTag
  | .MarshalHTML buf =>
    match (MarshalHTML (.tag b) buf).node with
    | .tag b1 => b1
    | _ => b

/-- The element after a sequence of calls, in order. -/
def applyCalls (b : HTMLTagBuilder HTMLComponent) (calls : List BuilderCall) :
    HTMLTagBuilder HTMLComponent :=
  calls.foldl applyCall b

/-- What holds of every element built with `Tag` and the methods of the builder: the keys
of the attribute list are distinct, the class names are clean tokens, and no style fragment
is empty or starts or ends with a semicolon (byte 59). -/
def WellFormed {χ : Type} (b : HTMLTagBuilder χ) : Prop :=
  (b.attrs.map tagAttr.key).Nodup ∧
  (∀ t ∈ b.classNames, CleanToken t) ∧
  (∀ s ∈ b.styles, s ≠ [] ∧ s.head? ≠ some 59 ∧ s.getLast? ≠ some 59)

/-- The statements of `(*HTMLTagBuilder).MarshalHTML` from the attribute loop on, the loop
having the entries `attrs` still to walk and the buffer being `buf1`: the rest of the
loop, `>`, the `omitEndTag` test, the children and the end tag. -/
def renderRest (b : HTMLTagBuilder HTMLComponent) (attrs : List tagAttr) (buf1 : Bytes) :
    Rendered HTMLComponent :=
  match writeAttrs attrs buf1 with
  | (buf2, some p) => ⟨.tag { b with attrs := materializedAttrs b }, buf2, .panic p⟩
  | (buf2, none) =>
    if b.omitEndTag then
      ⟨.tag { b with attrs := materializedAttrs b }, buf2 ++ [62] ++ [10], .nil⟩
    else
      match (marshalEach b.children (buf2 ++ [62])).exit with
      | .nil =>
        ⟨.tag { b with attrs := materializedAttrs b,
                       children := (marshalEach b.children (buf2 ++ [62])).node },
          (marshalEach b.children (buf2 ++ [62])).buf ++ [60, 47] ++ b.tag ++ [62, 10],
          .nil⟩
      | e =>
        ⟨.tag { b with attrs := materializedAttrs b,
                       children := (marshalEach b.children (buf2 ++ [62])).node },
          (marshalEach b.children (buf2 ++ [62])).buf, e⟩

/-! ## Test fixtures (tag_test.go, bench_test.go) -/


/-- The element `Tag("p").Class("menu").Style("color:red").Children(Text("Hi"))` inside
`Components(...)` together with a nil entry. -/
def styledList : HTMLComponent :=
  Components
    [some (.tag ((((Tag (lit "p")).Class [lit "menu"]).Style (lit "color:red")).Children
      [some (Text (lit "Hi"))])), none]


/-- The element `Tag("div").Children(Tag("a").Children(Text("Click me")).Attr("href", "/link"))`,
the `Div(A(Text("Click me")).Href("/link"))` of bench_test.go. -/
def linkDiv : HTMLTagBuilder HTMLComponent :=
  (Tag (lit "div")).Children
    [some (.tag (((Tag (lit "a")).Children [some (Text (lit "Click me"))]).Attr
      [.str (lit "href"), .str (lit "/link")]).1)]

/-- The anchor `Tag("a").Children(Text("Click me")).Attr("href", "/link")`. -/
def linkAnchor : HTMLTagBuilder HTMLComponent :=
  (((Tag (lit "a")).Children [some (Text (lit "Click me"))]).Attr
    [.str (lit "href"), .str (lit "/link")]).1

/-- A `ComponentFunc` that appends `oops` to the buffer and returns the error `boom`. -/
def failingChild : HTMLComponent :=
  .func (fun buf => (buf ++ lit "oops", .error ⟨lit "boom"⟩))

/-- The element `Tag("br").OmitEndTag().Attr("id", "x")`. -/
def brElement : HTMLTagBuilder HTMLComponent :=
  ((Tag (lit "br")).OmitEndTag.Attr [.str (lit "id"), .str (lit "x")]).1

/-- An `img` without end tag, with a `src` and then an attribute `data` whose value
`sonic.Marshal` rejects with the error `failure`, and one text child. -/
def badJSONImg : HTMLTagBuilder HTMLComponent :=
  ⟨lit "img", true,
    [⟨lit "src", .str (lit "/a.png")⟩, ⟨lit "data", .other (.fail ⟨lit "failure"⟩)⟩], [], [],
    [some (Text (lit "x"))]⟩

/-- An anchor with an `href` and then an attribute `data` whose value `sonic.Marshal`
rejects with the error `failure`. -/
def badJSONAnchor : HTMLTagBuilder HTMLComponent :=
  ⟨lit "a", false,
    [⟨lit "href", .str (lit "/link")⟩, ⟨lit "data", .other (.fail ⟨lit "failure"⟩)⟩], [], [],
    []⟩

/-- A `div` with an attribute `data` whose value `sonic.Marshal` rejects with the error
`failure`, and no child. -/
def badJSONDiv (omitEndTag : Bool) : HTMLTagBuilder HTMLComponent :=
  ⟨lit "div", omitEndTag, [⟨lit "data", .other (.fail ⟨lit "failure"⟩)⟩], [], [], []⟩


/-- The inner element of the test "case 2":
`Div().Text("Hello").Attr("class", "menu", "id", "the-menu", "style").Attr("id", "menu-id")`,
the element being built with `Tag("div")`. -/
def case2Inner : HTMLTagBuilder HTMLComponent :=
  (((((Tag (lit "div")).Children []).Text (lit "Hello")).Attr
      [.str (lit "class"), .str (lit "menu"), .str (lit "id"), .str (lit "the-menu"),
        .str (lit "style")]).1.Attr
      [.str (lit "id"), .str (lit "menu-id")]).1

/-- The inner element of the test "escape 1":
`Div().Text("Hello").Attr("class", "menu", "id", "the><&\"'-menu", "style")`. -/
def escape1Inner : HTMLTagBuilder HTMLComponent :=
  ((((Tag (lit "div")).Children []).Text (lit "Hello")).Attr
      [.str (lit "class"), .str (lit "menu"), .str (lit "id"), .str (lit "the><&\"'-menu"),
        .str (lit "style")]).1

/-- The element `Tag("div").Attr("class", "menu", "id", "the-menu").Attr("id", "menu-id")`. -/
def setTwice : HTMLTagBuilder HTMLComponent :=
  (((Tag (lit "div")).Attr
      [.str (lit "class"), .str (lit "menu"), .str (lit "id"), .str (lit "the-menu")]).1.Attr
      [.str (lit "id"), .str (lit "menu-id")]).1

/-- The element `Tag("input").Attr("disabled", true, "checked", false, "name", "")`. -/
def boolInput : HTMLTagBuilder HTMLComponent :=
  ((Tag (lit "input")).Attr
      [.str (lit "disabled"), .bool true, .str (lit "checked"), .bool false,
        .str (lit "name"), .str []]).1

/-- A `div` with an attribute `data` whose value `sonic.Marshal` rejects with the error
`failure`, and one child: the `ComponentFunc` that returns the error `boom`. -/
def badJSONDivFailingChild : HTMLTagBuilder HTMLComponent :=
  ⟨lit "div", false, [⟨lit "data", .other (.fail ⟨lit "failure"⟩)⟩], [], [],
    [some failingChild]⟩

/-- The element `Tag("ul").Attr("id", "l").Children(Text("a"), nil, f, Text("b"))`, `f` being
the `ComponentFunc` that returns the error `boom`. -/
def failingUl : HTMLTagBuilder HTMLComponent :=
  ((Tag (lit "ul")).Attr [.str (lit "id"), .str (lit "l")]).1.Children
    [some (Text (lit "a")), none, some failingChild, some (Text (lit "b"))]

/-- The node list `Components(f, Text("x"))`, `f` being the `ComponentFunc` that returns the
error `boom`. -/
def failingList : HTMLComponent :=
  Components [some failingChild, some (Text (lit "x"))]

/-- The calls `Attr("class", "x")`, `Class("a")`, `MarshalHTML`, `Class("b")`,
`MarshalHTML`. -/
def classTwiceCalls : List BuilderCall :=
  [.Attr [.str (lit "class"), .str (lit "x")], .Class [lit "a"], .MarshalHTML [],
    .Class [lit "b"], .MarshalHTML []]

/-- The calls `Attr("class", "x", "style", "y")`, `Class("a")`, `Style("k:v")`. -/
def bothSetCalls : List BuilderCall :=
  [.Attr [.str (lit "class"), .str (lit "x"), .str (lit "style"), .str (lit "y")],
    .Class [lit "a"], .Style (lit "k:v")]

/-- The calls `Attr("style", "x")`, `Style(" ")`. -/
def blankStyleCalls : List BuilderCall :=
  [.Attr [.str (lit "style"), .str (lit "x")], .Style (lit " ")]

/-- The calls `Style("color:red;")`, `StyleIf("x:y", false)`, `Style(";margin:0;;")`. -/
def twoStyleCalls : List BuilderCall :=
  [.Style (lit "color:red;"), .StyleIf (lit "x:y") false, .Style (lit ";margin:0;;")]

/-- The call `Style("color:red; ")`, the declaration followed by a space. -/
def spacedStyleCalls : List BuilderCall :=
  [.Style (lit "color:red; ")]

/-- The element `Tag("input").Attr("data", v, "disabled", true)`, `v` a value that
`sonic.Marshal` rejects with the error `failure`. -/
def failerThenDisabled : HTMLTagBuilder HTMLComponent :=
  ((Tag (lit "input")).Attr
      [.str (lit "data"), .other (.fail ⟨lit "failure"⟩), .str (lit "disabled"),
        .bool true]).1

/-- The element `Tag("p").Attr("class", true).Class("a")`. -/
def classTrueThenClass : HTMLTagBuilder HTMLComponent :=
  ((Tag (lit "p")).Attr [.str (lit "class"), .bool true]).1.Class [lit "a"]

/-- The element `Tag("p").Attr("class", "").Class("a")`. -/
def classEmptyThenClass : HTMLTagBuilder HTMLComponent :=
  ((Tag (lit "p")).Attr [.str (lit "class"), .str []]).1.Class [lit "a"]

/-- The element `Tag("p").Attr("bad", v, "data", w)`, `v` a value that `sonic.Marshal`
rejects with the error `failure` and `w` a value whose JSON text is `[1]`. -/
def failerThenData : HTMLTagBuilder HTMLComponent :=
  ((Tag (lit "p")).Attr
      [.str (lit "bad"), .other (.fail ⟨lit "failure"⟩), .str (lit "data"),
        .other (.json (lit "[1]"))]).1

/-- The element `Tag("p").Attr("id", "x", "data", w)`, `w` a value whose JSON text is
the mapping with the key `a` and the value `it's`. -/
def jsonData : HTMLTagBuilder HTMLComponent :=
  ((Tag (lit "p")).Attr
      [.str (lit "id"), .str (lit "x"), .str (lit "data"),
        .other (.json (lit "\x7b\"a\":\"it's\"\x7d"))]).1

/-- An element `Div(inner)`, that is `Tag("div").Children(inner)`. -/
def divOf (inner : HTMLTagBuilder HTMLComponent) : HTMLComponent :=
  .tag ((Tag (lit "div")).Children [some (.tag inner)])

/-! ## Escaping -/

theorem appendEscapeAttr_eq (buf s : Bytes) :
    appendEscapeAttr buf s
      = buf ++ s.flatMap (fun c => if c = 39 then lit "&#39;" else [c]) := by
  induction s generalizing buf with
  | nil => simp [appendEscapeAttr]
  | cons c rest ih =>
    unfold appendEscapeAttr
    split_ifs with h
    · rw [ih]; simp [List.flatMap_cons, h]
    · rw [ih]; simp [List.flatMap_cons, h]

theorem appendEscapeAttr_buf (buf s : Bytes) :
    appendEscapeAttr buf s = buf ++ appendEscapeAttr [] s := by
  rw [appendEscapeAttr_eq, appendEscapeAttr_eq []]; simp

/-- C1: `appendEscapeAttr buf s` is `buf` followed by `s` in which every apostrophe
(byte 39) is replaced by the five bytes `&#39;` and every other byte is copied unchanged,
in order; the test "escape 1" of tag_test.go renders the id `the><&"'-menu` as
`id='the><&"&#39;-menu'`. -/
theorem C1_appendEscapeAttr_spec :
    (∀ buf s : Bytes,
      appendEscapeAttr buf s
        = buf ++ s.flatMap (fun c => if c = 39 then [38, 35, 51, 57, 59] else [c])) ∧
    lit "&#39;" = [38, 35, 51, 57, 59] ∧
    (MarshalHTML (divOf escape1Inner) []).buf
      = lit "\n<div>\n<div class='menu' id='the><&\"&#39;-menu'>Hello</div>\n</div>\n" ∧
    (MarshalHTML (divOf escape1Inner) []).exit = .nil := by
  refine ⟨fun buf s => ?_, by decide, by decide, by decide⟩
  rw [appendEscapeAttr_eq]
  rfl

/-! ## The attribute loop -/

theorem writeAttrs_append (l1 l2 : List tagAttr) (buf : Bytes) :
    writeAttrs (l1 ++ l2) buf
      = match writeAttrs l1 buf with
        | (buf1, none) => writeAttrs l2 buf1
        | (buf1, some p) => (buf1, some p) := by
  induction l1 generalizing buf with
  | nil => simp [writeAttrs]
  | cons a rest ih =>
    simp only [List.cons_append, writeAttrs]
    cases coerce a.value with
    | error p => simp
    | ok c =>
      simp only []
      split_ifs <;> exact ih _

theorem writeAttrs_buf (l : List tagAttr) (buf : Bytes) :
    writeAttrs l buf = (buf ++ (writeAttrs l []).1, (writeAttrs l []).2) := by
  induction l generalizing buf with
  | nil => simp [writeAttrs]
  | cons a rest ih =>
    simp only [writeAttrs]
    cases coerce a.value with
    | error p => simp
    | ok c =>
      simp only []
      split_ifs
      · exact ih _
      · exact ih _
      · rw [ih, ih (appendEscapeAttr _ _), appendEscapeAttr_buf (buf ++ [32]),
          appendEscapeAttr_buf ([] ++ [32])]
        simp
      · rw [ih, ih (appendEscapeAttr _ _ ++ _), appendEscapeAttr_buf (buf ++ [32]),
          appendEscapeAttr_buf (_ ++ [61, 39]), appendEscapeAttr_buf ([] ++ [32]),
          appendEscapeAttr_buf (_ ++ [61, 39]) c.val]
        simp

/-! ## SetAttr -/

theorem setAttrList_absent (k : Bytes) (v : AttrValue) (l : List tagAttr)
    (h : ∀ x ∈ l, x.key ≠ k) : setAttrList k v l = l ++ [⟨k, v⟩] := by
  induction l with
  | nil => rfl
  | cons a rest ih =>
    have ha : a.key ≠ k := h a (List.mem_cons_self _ _)
    have hr : ∀ x ∈ rest, x.key ≠ k := fun x hx => h x (List.mem_cons_of_mem _ hx)
    simp [setAttrList, ha, ih hr]

theorem setAttrList_present (k : Bytes) (v : AttrValue) (l1 l2 : List tagAttr) (a : tagAttr)
    (ha : a.key = k) (h : ∀ x ∈ l1, x.key ≠ k) :
    setAttrList k v (l1 ++ a :: l2) = l1 ++ ⟨k, v⟩ :: l2 := by
  induction l1 with
  | nil => simp [setAttrList, ha]
  | cons x rest ih =>
    have hx : x.key ≠ k := h x (List.mem_cons_self _ _)
    have hr : ∀ y ∈ rest, y.key ≠ k := fun y hy => h y (List.mem_cons_of_mem _ hy)
    simp [setAttrList, hx, ih hr]

/-- C4: `SetAttr(k, v)` on an attribute list in which `k` is present (first at the place
of `a`, after the entries `l1`) leaves every other entry, the order and the keys as they
are and puts the value `v` at that place, so the length and the list of keys do not change;
when `k` is absent the pair is appended at the end.  Nothing but the attribute list
changes.  `Attr("class", "menu", "id", "the-menu")` followed by `Attr("id", "menu-id")`
renders `class='menu' id='menu-id'`, the id in second position. -/
theorem C4_SetAttr_in_place {χ : Type} (b : HTMLTagBuilder χ) (k : Bytes) (v : AttrValue) :
    (∀ (l1 l2 : List tagAttr) (a : tagAttr),
        b.attrs = l1 ++ a :: l2 → a.key = k → (∀ x ∈ l1, x.key ≠ k) →
        (b.SetAttr k v).attrs = l1 ++ ⟨k, v⟩ :: l2 ∧
        (b.SetAttr k v).attrs.length = b.attrs.length ∧
        (b.SetAttr k v).attrs.map tagAttr.key = b.attrs.map tagAttr.key) ∧
    ((∀ x ∈ b.attrs, x.key ≠ k) → (b.SetAttr k v).attrs = b.attrs ++ [⟨k, v⟩]) ∧
    ((b.SetAttr k v).tag = b.tag ∧ (b.SetAttr k v).omitEndTag = b.omitEndTag ∧
      (b.SetAttr k v).styles = b.styles ∧ (b.SetAttr k v).classNames = b.classNames ∧
      (b.SetAttr k v).children = b.children) ∧
    setTwice.attrs = [⟨lit "class", .str (lit "menu")⟩, ⟨lit "id", .str (lit "menu-id")⟩] ∧
    (MarshalHTML (.tag setTwice) []).buf = lit "\n<div class='menu' id='menu-id'></div>\n" := by
  refine ⟨?_, ?_, ⟨rfl, rfl, rfl, rfl, rfl⟩, by decide, by decide⟩
  · intro l1 l2 a hb ha h
    have e : (b.SetAttr k v).attrs = l1 ++ ⟨k, v⟩ :: l2 := by
      show setAttrList k v b.attrs = _
      rw [hb]; exact setAttrList_present k v l1 l2 a ha h
    refine ⟨e, ?_, ?_⟩
    · rw [e, hb]; simp
    · rw [e, hb]; simp [ha]
  · intro h
    exact setAttrList_absent k v b.attrs h

/-- Witness of C4: setting `id` again on the attributes `class`, `id`, `style`, and setting
the absent key `href`. -/
theorem C4_SetAttr_in_place_witness :
    ((⟨lit "div", false,
        [⟨lit "class", .str (lit "menu")⟩, ⟨lit "id", .str (lit "the-menu")⟩,
          ⟨lit "style", .str []⟩], [], [], []⟩ : HTMLTagBuilder HTMLComponent).SetAttr
        (lit "id") (.str (lit "menu-id"))).attrs
      = [⟨lit "class", .str (lit "menu")⟩] ++ ⟨lit "id", .str (lit "menu-id")⟩ ::
          [⟨lit "style", .str []⟩] ∧
    ((Tag (lit "a") : HTMLTagBuilder HTMLComponent).SetAttr (lit "href")
        (.str (lit "/link"))).attrs
      = [] ++ [⟨lit "href", .str (lit "/link")⟩] :=
  ⟨((C4_SetAttr_in_place
      (⟨lit "div", false,
        [⟨lit "class", .str (lit "menu")⟩, ⟨lit "id", .str (lit "the-menu")⟩,
          ⟨lit "style", .str []⟩], [], [], []⟩ : HTMLTagBuilder HTMLComponent)
      (lit "id") (.str (lit "menu-id"))).1
      [⟨lit "class", .str (lit "menu")⟩] [⟨lit "style", .str []⟩]
      ⟨lit "id", .str (lit "the-menu")⟩ rfl rfl (by decide)).1,
   (C4_SetAttr_in_place (Tag (lit "a") : HTMLTagBuilder HTMLComponent) (lit "href")
      (.str (lit "/link"))).2.1 (by decide)⟩

/-! ## MarshalHTML of an element -/

theorem Attr_pair {χ : Type} (b : HTMLTagBuilder χ) (k : Bytes) (v : AttrValue) :
    b.Attr [.str k, v] = (b.SetAttr k v, none) := by
  simp [HTMLTagBuilder.Attr, attrLoop]

theorem materializedAttrs_eq {χ : Type} (b : HTMLTagBuilder χ) :
    materializedAttrs b
      = (if (TrimSpace (Join b.styles (lit "; "))).length > 0 then
          setAttrList (lit "style") (.str (TrimSpace (Join b.styles (lit "; ")) ++ lit ";"))
            (if (TrimSpace (Join b.classNames (lit " "))).length > 0 then
              setAttrList (lit "class") (.str (TrimSpace (Join b.classNames (lit " ")))) b.attrs
             else b.attrs)
         else
          (if (TrimSpace (Join b.classNames (lit " "))).length > 0 then
            setAttrList (lit "class") (.str (TrimSpace (Join b.classNames (lit " ")))) b.attrs
           else b.attrs)) := by
  cases b with
  | mk tag omitEndTag attrs styles classNames children =>
    simp only [materializedAttrs, materialize, Attr_pair, HTMLTagBuilder.SetAttr]
    by_cases h1 : (TrimSpace (Join classNames (lit " "))).length > 0 <;>
      by_cases h2 : (TrimSpace (Join styles (lit "; "))).length > 0 <;>
      simp [h1, h2]

theorem materialize_eq {χ : Type} (b : HTMLTagBuilder χ) :
    materialize b = ({ b with attrs := materializedAttrs b }, none) := by
  cases b with
  | mk tag omitEndTag attrs styles classNames children =>
    simp only [materializedAttrs, materialize, Attr_pair, HTMLTagBuilder.SetAttr]
    by_cases h1 : (TrimSpace (Join classNames (lit " "))).length > 0 <;>
      by_cases h2 : (TrimSpace (Join styles (lit "; "))).length > 0 <;>
      simp [h1, h2]

theorem MarshalHTML_tag (b : HTMLTagBuilder HTMLComponent) (buf : Bytes) :
    MarshalHTML (.tag b) buf
      = match writeAttrs (materializedAttrs b) (buf ++ [10, 60] ++ b.tag) with
        | (buf2, some p) => ⟨.tag { b with attrs := materializedAttrs b }, buf2, .panic p⟩
        | (buf2, none) =>
          if b.omitEndTag then
            ⟨.tag { b with attrs := materializedAttrs b }, buf2 ++ [62] ++ [10], .nil⟩
          else
            match (marshalEach b.children (buf2 ++ [62])).exit with
            | .nil =>
              ⟨.tag { b with attrs := materializedAttrs b,
                             children := (marshalEach b.children (buf2 ++ [62])).node },
                (marshalEach b.children (buf2 ++ [62])).buf ++ [60, 47] ++ b.tag ++ [62, 10],
                .nil⟩
            | e =>
              ⟨.tag { b with attrs := materializedAttrs b,
                             children := (marshalEach b.children (buf2 ++ [62])).node },
                (marshalEach b.children (buf2 ++ [62])).buf, e⟩ := by
  cases b with
  | mk tag omitEndTag attrs styles classNames children =>
    rw [MarshalHTML, materialize_eq]

theorem coerce_ok_of_not_fail (v : AttrValue) (h : ∀ err, v ≠ .other (.fail err)) :
    ∃ c, coerce v = .ok c := by
  cases v with
  | other m =>
    cases m with
    | json text => exact ⟨_, rfl⟩
    | fail err => exact absurd rfl (h err)
  | _ => exact ⟨_, rfl⟩

theorem writeAttrs_ok (l : List tagAttr) (buf : Bytes)
    (h : ∀ a ∈ l, ∀ err, a.value ≠ .other (.fail err)) : (writeAttrs l buf).2 = none := by
  induction l generalizing buf with
  | nil => rfl
  | cons a rest ih =>
    have hr : ∀ x ∈ rest, ∀ err, x.value ≠ .other (.fail err) :=
      fun x hx => h x (List.mem_cons_of_mem _ hx)
    obtain ⟨c, hc⟩ := coerce_ok_of_not_fail a.value (h a (List.mem_cons_self _ _))
    simp only [writeAttrs, hc]
    split_ifs <;> exact ih _ hr

theorem writeAttrs_fail (l1 l2 : List tagAttr) (k : Bytes) (err : GoError) (buf : Bytes)
    (h : ∀ a ∈ l1, ∀ e, a.value ≠ .other (.fail e)) :
    (writeAttrs (l1 ++ ⟨k, .other (.fail err)⟩ :: l2) buf).2 = some (.error err) := by
  rw [writeAttrs_append]
  have h1 := writeAttrs_ok l1 buf h
  cases hw : writeAttrs l1 buf with
  | mk buf1 e =>
    rw [hw] at h1
    simp only at h1
    subst h1
    simp [writeAttrs, coerce, JSONString]

theorem marshalEach_cons_some (c : HTMLComponent) (rest : List (Option HTMLComponent))
    (buf : Bytes) :
    marshalEach (some c :: rest) buf
      = match (MarshalHTML c buf).exit with
        | .nil =>
          ⟨some (MarshalHTML c buf).node :: (marshalEach rest (MarshalHTML c buf).buf).node,
            (marshalEach rest (MarshalHTML c buf).buf).buf,
            (marshalEach rest (MarshalHTML c buf).buf).exit⟩
        | e => ⟨some (MarshalHTML c buf).node :: rest, (MarshalHTML c buf).buf, e⟩ := by
  rw [marshalEach]

theorem marshalEach_cons_none (rest : List (Option HTMLComponent)) (buf : Bytes) :
    marshalEach (none :: rest) buf
      = ⟨none :: (marshalEach rest buf).node, (marshalEach rest buf).buf,
          (marshalEach rest buf).exit⟩ := by
  rw [marshalEach]

theorem marshalEach_nil (buf : Bytes) : marshalEach [] buf = ⟨[], buf, .nil⟩ := by
  rw [marshalEach]

theorem marshalEach_buf_of_nil (cs : List (Option HTMLComponent)) (buf : Bytes)
    (h : (marshalEach cs buf).exit = .nil) :
    (marshalEach cs buf).buf
      = (cs.filterMap id).foldl (fun acc c => (MarshalHTML c acc).buf) buf := by
  induction cs generalizing buf with
  | nil => simp [marshalEach_nil]
  | cons c rest ih =>
    cases c with
    | none =>
      rw [marshalEach_cons_none] at h ⊢
      simpa using ih buf h
    | some c =>
      rw [marshalEach_cons_some] at h ⊢
      cases he : (MarshalHTML c buf).exit with
      | nil =>
        rw [he] at h
        simp only [he]
        simpa using ih _ h
      | error e => rw [he] at h; simp at h
      | panic p => rw [he] at h; simp at h

/-- C5, for attribute values that serialise: for an element whose end tag is not omitted, whose attribute values
(once class and style are materialised) make no `JSONString` call panic and whose non-nil
children all return nil, `MarshalHTML` returns nil and appends exactly: newline, `<`, the
tag, the bytes of the attribute loop, `>`, what the non-nil children append in order,
`</`, the tag, `>`, newline.  A `div` holding an anchor with href `/link` and the text
`Click me` renders as `\n<div>\n<a href='/link'>Click me</a>\n</div>\n`. -/
theorem C5_render_shape (b : HTMLTagBuilder HTMLComponent) (buf : Bytes)
    (hend : b.omitEndTag = false)
    (hjson : ∀ a ∈ materializedAttrs b, ∀ err, a.value ≠ .other (.fail err))
    (hch : (marshalEach b.children (buf ++ [10, 60] ++ b.tag ++ attrBytes b ++ [62])).exit
            = .nil) :
    (MarshalHTML (.tag b) buf).buf
      = (b.children.filterMap id).foldl (fun acc c => (MarshalHTML c acc).buf)
          (buf ++ [10, 60] ++ b.tag ++ attrBytes b ++ [62])
        ++ [60, 47] ++ b.tag ++ [62, 10] ∧
    (MarshalHTML (.tag b) buf).exit = .nil ∧
    (MarshalHTML (.tag linkDiv) []).buf
      = lit "\n<div>\n<a href='/link'>Click me</a>\n</div>\n" := by
  refine ⟨?_, ?_, by decide⟩
  all_goals
    rw [MarshalHTML_tag, writeAttrs_buf]
    have h2 := writeAttrs_ok (materializedAttrs b) [] hjson
    have hb : (writeAttrs (materializedAttrs b) []).1 = attrBytes b := rfl
    rw [h2, hb]
    simp only [hend, Bool.false_eq_true, if_false, hch]
  exact congrArg (fun x => x ++ [60, 47] ++ b.tag ++ [62, 10])
    (marshalEach_buf_of_nil _ _ hch) |>.trans (by simp)

/-- Witness of C5: the anchor with href `/link` and the text `Click me`. -/
theorem C5_render_shape_witness :
    (MarshalHTML (.tag linkAnchor) []).buf = lit "\n<a href='/link'>Click me</a>\n" ∧
    (MarshalHTML (.tag linkAnchor) []).exit = .nil :=
  have hattrs : materializedAttrs linkAnchor = [⟨lit "href", .str (lit "/link")⟩] := by decide
  have h := C5_render_shape linkAnchor [] rfl
    (by rw [hattrs]; intro a ha err; simp at ha; subst ha; simp) (by decide)
  ⟨h.1.trans (by decide), h.2.1⟩

/-- C5 as stated fails: a `div` whose end tag is not omitted and that has no child at all,
but an attribute value on which `sonic.Marshal` fails, does not get the shape
`\n<div ...></div>\n`: the call panics after `\n<div`. -/
theorem C5_counterexample :
    (badJSONDiv false).omitEndTag = false ∧
    (badJSONDiv false).children = [] ∧
    (MarshalHTML (.tag (badJSONDiv false)) []).buf = lit "\n<div" ∧
    (MarshalHTML (.tag (badJSONDiv false)) []).exit = .panic (.error ⟨lit "failure"⟩) :=
  ⟨rfl, rfl, by decide, by decide⟩

/-! ## Omitted end tag -/

theorem materializedAttrs_Children (b : HTMLTagBuilder HTMLComponent)
    (children : List (Option HTMLComponent)) :
    materializedAttrs (b.Children children) = materializedAttrs b := by
  rw [materializedAttrs_eq, materializedAttrs_eq]; rfl

/-- C9, for attribute values that serialise: for an element with `omitEndTag` set whose attribute values (once class
and style are materialised) make no `JSONString` call panic, and for every list of
children, `MarshalHTML` returns nil and appends exactly newline, `<`, the tag, the bytes of
the attribute loop, `>`, newline: no child is rendered (the children are left as they
are), no end tag is written, and the output is that of the element without children. -/
theorem C9_omit_end_tag (b : HTMLTagBuilder HTMLComponent)
    (children : List (Option HTMLComponent)) (buf : Bytes)
    (homit : b.omitEndTag = true)
    (hjson : ∀ a ∈ materializedAttrs b, ∀ err, a.value ≠ .other (.fail err)) :
    MarshalHTML (.tag (b.Children children)) buf
      = ⟨.tag { b with attrs := materializedAttrs b, children := children },
          buf ++ [10, 60] ++ b.tag ++ attrBytes b ++ [62, 10], .nil⟩ ∧
    (MarshalHTML (.tag (b.Children children)) buf).buf
      = (MarshalHTML (.tag (b.Children [])) buf).buf := by
  have key : ∀ ch : List (Option HTMLComponent),
      MarshalHTML (.tag (b.Children ch)) buf
        = ⟨.tag { b with attrs := materializedAttrs b, children := ch },
            buf ++ [10, 60] ++ b.tag ++ attrBytes b ++ [62, 10], .nil⟩ := by
    intro ch
    rw [MarshalHTML_tag, materializedAttrs_Children, writeAttrs_buf]
    have h2 := writeAttrs_ok (materializedAttrs b) [] hjson
    have hb : (writeAttrs (materializedAttrs b) []).1 = attrBytes b := rfl
    rw [h2, hb]
    simp [HTMLTagBuilder.Children, homit]
  exact ⟨key children, by rw [key children, key []]⟩

/-- Witness of C9: a `br` with an id and a child whose render would return an error. -/
theorem C9_omit_end_tag_witness :
    (MarshalHTML (.tag (brElement.Children [some failingChild])) []).buf = lit "\n<br id='x'>\n" ∧
    (MarshalHTML (.tag (brElement.Children [some failingChild])) []).exit = .nil ∧
    (MarshalHTML failingChild []).exit = .error ⟨lit "boom"⟩ :=
  have hattrs : materializedAttrs brElement = [⟨lit "id", .str (lit "x")⟩] := by decide
  have h := (C9_omit_end_tag brElement [some failingChild] [] rfl
    (by rw [hattrs]; intro a ha err; simp at ha; subst ha; simp)).1
  ⟨(congrArg Rendered.buf h).trans (by decide), congrArg Rendered.exit h, by decide⟩

/-- C9 as stated fails: an `img` with `omitEndTag` set and an attribute value on which
`sonic.Marshal` fails does not succeed: the call panics after `\n<img src='/a.png'`. -/
theorem C9_counterexample :
    badJSONImg.omitEndTag = true ∧
    (MarshalHTML (.tag badJSONImg) []).exit = .panic (.error ⟨lit "failure"⟩) ∧
    (MarshalHTML (.tag badJSONImg) []).exit ≠ .nil ∧
    (MarshalHTML (.tag badJSONImg) []).buf = lit "\n<img src='/a.png'" := by
  decide

/-! ## Failure of the JSON fallback -/

/-- C10, as the code behaves: when the attribute list of an element (once class and style are
materialised) holds a value on which `sonic.Marshal` fails, `MarshalHTML` does not return
an error value: it panics with the error of the first such value, and so do `Fprint`
(whatever the writer) and `MustString`. -/
theorem C10_json_failure_panics (b : HTMLTagBuilder HTMLComponent) (buf : Bytes)
    (l1 l2 : List tagAttr) (k : Bytes) (err : GoError)
    (hsplit : materializedAttrs b = l1 ++ ⟨k, .other (.fail err)⟩ :: l2)
    (hfirst : ∀ a ∈ l1, ∀ e, a.value ≠ .other (.fail e)) :
    (MarshalHTML (.tag b) buf).exit = .panic (.error err) ∧
    (∀ write : Bytes → Exit, Fprint write (some (.tag b)) = .panic (.error err)) ∧
    MustString (.tag b) = .error (.error err) := by
  have key : ∀ buf0, (MarshalHTML (.tag b) buf0).exit = .panic (.error err) := by
    intro buf0
    rw [MarshalHTML_tag, hsplit]
    have h := writeAttrs_fail l1 l2 k err (buf0 ++ [10, 60] ++ b.tag) hfirst
    cases hw : writeAttrs (l1 ++ ⟨k, .other (.fail err)⟩ :: l2) (buf0 ++ [10, 60] ++ b.tag) with
    | mk buf2 e =>
      rw [hw] at h
      simp only at h
      subst h
      rfl
  refine ⟨key buf, fun write => ?_, ?_⟩
  · simp [Fprint, key []]
  · simp [MustString, key []]

/-- Witness of C10: the anchor whose second attribute fails to serialise. -/
theorem C10_json_failure_panics_witness :
    (MarshalHTML (.tag badJSONAnchor) []).exit = .panic (.error ⟨lit "failure"⟩) ∧
    MustString (.tag badJSONAnchor) = .error (.error ⟨lit "failure"⟩) :=
  have h := C10_json_failure_panics badJSONAnchor [] [⟨lit "href", .str (lit "/link")⟩] []
    (lit "data") ⟨lit "failure"⟩ (by decide)
    (by intro a ha e; simp at ha; subst ha; simp)
  ⟨h.1, h.2.2⟩

/-- C10 as stated fails: for the anchor whose attribute `data` fails to serialise,
`MarshalHTML` and `Fprint` do not return an error value; they panic. -/
theorem C10_counterexample :
    (MarshalHTML (.tag badJSONAnchor) []).exit = .panic (.error ⟨lit "failure"⟩) ∧
    (MarshalHTML (.tag badJSONAnchor) []).exit ≠ .error ⟨lit "failure"⟩ ∧
    Fprint (fun _ => .nil) (some (.tag badJSONAnchor)) = .panic (.error ⟨lit "failure"⟩) := by
  decide

/-! ## Rendering twice -/

theorem setAttrList_idem (k : Bytes) (v : AttrValue) (l : List tagAttr) :
    setAttrList k v (setAttrList k v l) = setAttrList k v l := by
  induction l with
  | nil => simp [setAttrList]
  | cons a rest ih =>
    by_cases h : a.key = k
    · simp [setAttrList, h]
    · simp [setAttrList, h, ih]

theorem setAttrList_idem_other (k k2 : Bytes) (v v2 : AttrValue) (l : List tagAttr)
    (hk : k ≠ k2) :
    setAttrList k v (setAttrList k2 v2 (setAttrList k v l))
      = setAttrList k2 v2 (setAttrList k v l) := by
  induction l with
  | nil => simp [setAttrList, hk]
  | cons a rest ih =>
    by_cases h : a.key = k
    · simp [setAttrList, h, hk]
    · by_cases h2 : a.key = k2
      · simp [setAttrList, h, h2, hk.symm, setAttrList_idem]
      · simp [setAttrList, h, h2, ih]

theorem materializedAttrs_idem {χ : Type} (b : HTMLTagBuilder χ) (children : List (Option χ)) :
    materializedAttrs { b with attrs := materializedAttrs b, children := children }
      = materializedAttrs b := by
  have hne : lit "class" ≠ lit "style" := by decide
  rw [materializedAttrs_eq { b with attrs := materializedAttrs b, children := children },
    materializedAttrs_eq b]
  simp only []
  by_cases h1 : (TrimSpace (Join b.classNames (lit " "))).length > 0 <;>
    by_cases h2 : (TrimSpace (Join b.styles (lit "; "))).length > 0 <;>
    simp only [h1, h2, if_true, if_false, setAttrList_idem, setAttrList_idem_other _ _ _ _ _ hne]

theorem Framed_tag (b : HTMLTagBuilder HTMLComponent) (h : Framed (marshalEach b.children)) :
    Framed (MarshalHTML (.tag b)) := by
  intro buf
  rw [MarshalHTML_tag b buf, MarshalHTML_tag b [], writeAttrs_buf _ (buf ++ [10, 60] ++ b.tag),
    writeAttrs_buf _ ([] ++ [10, 60] ++ b.tag)]
  cases (writeAttrs (materializedAttrs b) []).2 with
  | some p => simp
  | none =>
    cases b.omitEndTag with
    | true => simp
    | false =>
      simp only [Bool.false_eq_true, if_false]
      rw [h (buf ++ [10, 60] ++ b.tag ++ (writeAttrs (materializedAttrs b) []).1 ++ [62]),
        h ([] ++ [10, 60] ++ b.tag ++ (writeAttrs (materializedAttrs b) []).1 ++ [62])]
      cases (marshalEach b.children []).exit <;> simp

theorem MarshalHTML_tag_again (b : HTMLTagBuilder HTMLComponent)
    (children : List (Option HTMLComponent)) (buf : Bytes) :
    MarshalHTML (.tag { b with attrs := materializedAttrs b, children := children }) buf
      = match (writeAttrs (materializedAttrs b) []).2 with
        | some p =>
          ⟨.tag { b with attrs := materializedAttrs b, children := children },
            buf ++ [10, 60] ++ b.tag ++ (writeAttrs (materializedAttrs b) []).1, .panic p⟩
        | none =>
          if b.omitEndTag then
            ⟨.tag { b with attrs := materializedAttrs b, children := children },
              buf ++ [10, 60] ++ b.tag ++ (writeAttrs (materializedAttrs b) []).1 ++ [62, 10],
              .nil⟩
          else
            match (marshalEach children
              (buf ++ [10, 60] ++ b.tag ++ (writeAttrs (materializedAttrs b) []).1 ++ [62])).exit with
            | .nil =>
              ⟨.tag { b with attrs := materializedAttrs b,
                             children := (marshalEach children
                (buf ++ [10, 60] ++ b.tag ++ (writeAttrs (materializedAttrs b) []).1 ++ [62])).node },
                (marshalEach children
                  (buf ++ [10, 60] ++ b.tag ++ (writeAttrs (materializedAttrs b) []).1 ++ [62])).buf
                  ++ [60, 47] ++ b.tag ++ [62, 10],
                .nil⟩
            | e =>
              ⟨.tag { b with attrs := materializedAttrs b,
                             children := (marshalEach children
                (buf ++ [10, 60] ++ b.tag ++ (writeAttrs (materializedAttrs b) []).1 ++ [62])).node },
                (marshalEach children
                  (buf ++ [10, 60] ++ b.tag ++ (writeAttrs (materializedAttrs b) []).1 ++ [62])).buf,
                e⟩ := by
  rw [MarshalHTML_tag, materializedAttrs_idem b children, writeAttrs_buf]
  cases (writeAttrs (materializedAttrs b) []).2 with
  | some p => rfl
  | none =>
    simp only []
    by_cases ho : b.omitEndTag = true
    · rw [if_pos ho, if_pos ho]; simp
    · rw [if_neg ho, if_neg ho]

theorem Repeatable_tag (b : HTMLTagBuilder HTMLComponent)
    (hF : Framed (marshalEach b.children))
    (hR : Repeatable (marshalEach b.children) marshalEach) :
    Repeatable (MarshalHTML (.tag b)) MarshalHTML := by
  intro buf
  have h0 := MarshalHTML_tag_again b b.children []
  have e0 : ({ b with attrs := materializedAttrs b, children := b.children } :
      HTMLTagBuilder HTMLComponent) = { b with attrs := materializedAttrs b } := rfl
  rw [MarshalHTML_tag b [], writeAttrs_buf _ ([] ++ [10, 60] ++ b.tag)]
  cases hW : (writeAttrs (materializedAttrs b) []).2 with
  | some p =>
    simp only []
    rw [MarshalHTML_tag_again b b.children buf, hW]
    simp
  | none =>
    simp only []
    by_cases ho : b.omitEndTag = true
    · rw [if_pos ho, MarshalHTML_tag_again b b.children buf, hW]
      simp only []
      rw [if_pos ho]
      simp
    · rw [if_neg ho]
      rw [hF ([] ++ [10, 60] ++ b.tag ++ (writeAttrs (materializedAttrs b) []).1 ++ [62])]
      have hR2 := hR (buf ++ [10, 60] ++ b.tag ++ (writeAttrs (materializedAttrs b) []).1 ++ [62])
      cases hE : (marshalEach b.children []).exit with
      | nil =>
        simp only []
        rw [MarshalHTML_tag_again b _ buf, hW]
        simp only []
        rw [if_neg ho, hR2, hE]
        simp
      | error e =>
        simp only []
        rw [MarshalHTML_tag_again b _ buf, hW]
        simp only []
        rw [if_neg ho, hR2, hE]
        simp
      | panic q =>
        simp only []
        rw [MarshalHTML_tag_again b _ buf, hW]
        simp only []
        rw [if_neg ho, hR2, hE]
        simp

theorem MarshalHTML_comps (hcs : List (Option HTMLComponent)) (buf : Bytes) :
    MarshalHTML (.comps hcs) buf
      = ⟨.comps (marshalEach hcs buf).node, (marshalEach hcs buf).buf,
          (marshalEach hcs buf).exit⟩ := by
  rw [MarshalHTML]

theorem Framed_comps (hcs : List (Option HTMLComponent)) (h : Framed (marshalEach hcs)) :
    Framed (MarshalHTML (.comps hcs)) := by
  intro buf
  rw [MarshalHTML_comps, MarshalHTML_comps, h buf]

theorem Repeatable_comps (hcs : List (Option HTMLComponent))
    (hR : Repeatable (marshalEach hcs) marshalEach) :
    Repeatable (MarshalHTML (.comps hcs)) MarshalHTML := by
  intro buf
  rw [MarshalHTML_comps hcs []]
  simp only []
  rw [MarshalHTML_comps, hR buf]

theorem Framed_raw (s : Bytes) : Framed (MarshalHTML (.raw s)) := by
  intro buf
  simp [MarshalHTML]

theorem Repeatable_raw (s : Bytes) : Repeatable (MarshalHTML (.raw s)) MarshalHTML := by
  intro buf
  simp [MarshalHTML]

theorem Framed_nil : Framed (marshalEach []) := by
  intro buf
  simp [marshalEach_nil]

theorem Repeatable_nil : Repeatable (marshalEach []) marshalEach := by
  intro buf
  simp [marshalEach_nil]

theorem Framed_cons_none (rest : List (Option HTMLComponent)) (h : Framed (marshalEach rest)) :
    Framed (marshalEach (none :: rest)) := by
  intro buf
  rw [marshalEach_cons_none, marshalEach_cons_none, h buf]

theorem Repeatable_cons_none (rest : List (Option HTMLComponent))
    (h : Repeatable (marshalEach rest) marshalEach) :
    Repeatable (marshalEach (none :: rest)) marshalEach := by
  intro buf
  rw [marshalEach_cons_none]
  simp only []
  rw [marshalEach_cons_none, h buf]

theorem Framed_cons_some (c : HTMLComponent) (rest : List (Option HTMLComponent))
    (hc : Framed (MarshalHTML c)) (h : Framed (marshalEach rest)) :
    Framed (marshalEach (some c :: rest)) := by
  intro buf
  rw [marshalEach_cons_some, marshalEach_cons_some, hc buf]
  cases hE : (MarshalHTML c []).exit with
  | nil =>
    simp only []
    rw [h (buf ++ (MarshalHTML c []).buf), h (MarshalHTML c []).buf]
    simp
  | error e => simp
  | panic q => simp

theorem Repeatable_cons_some (c : HTMLComponent) (rest : List (Option HTMLComponent))
    (hc : Repeatable (MarshalHTML c) MarshalHTML)
    (hF : Framed (marshalEach rest)) (h : Repeatable (marshalEach rest) marshalEach) :
    Repeatable (marshalEach (some c :: rest)) marshalEach := by
  intro buf
  rw [marshalEach_cons_some c rest []]
  cases hE : (MarshalHTML c []).exit with
  | nil =>
    simp only []
    rw [marshalEach_cons_some, hc buf]
    simp only [hE]
    rw [hF (MarshalHTML c []).buf]
    simp only []
    rw [h (buf ++ (MarshalHTML c []).buf)]
    simp
  | error e =>
    simp only []
    rw [marshalEach_cons_some, hc buf]
    simp [hE]
  | panic q =>
    simp only []
    rw [marshalEach_cons_some, hc buf]
    simp [hE]

mutual
theorem MarshalHTML_regular :
    ∀ c : HTMLComponent, noFunc c = true →
      Framed (MarshalHTML c) ∧ Repeatable (MarshalHTML c) MarshalHTML
  | .raw s, _ => ⟨Framed_raw s, Repeatable_raw s⟩
  | .comps hcs, h =>
    have ih := marshalEach_regular hcs (by simpa [noFunc] using h)
    ⟨Framed_comps hcs ih.1, Repeatable_comps hcs ih.2⟩
  | .tag ⟨tag, omitEndTag, attrs, styles, classNames, children⟩, h =>
    have ih := marshalEach_regular children (by simpa [noFunc] using h)
    ⟨Framed_tag _ ih.1, Repeatable_tag _ ih.1 ih.2⟩
  | .func f, h => by simp [noFunc] at h
theorem marshalEach_regular :
    ∀ cs : List (Option HTMLComponent), noFuncEach cs = true →
      Framed (marshalEach cs) ∧ Repeatable (marshalEach cs) marshalEach
  | [], _ => ⟨Framed_nil, Repeatable_nil⟩
  | none :: rest, h =>
    have ih := marshalEach_regular rest (by simpa [noFuncEach] using h)
    ⟨Framed_cons_none rest ih.1, Repeatable_cons_none rest ih.2⟩
  | some c :: rest, h =>
    have hh : noFunc c = true ∧ noFuncEach rest = true := by simpa [noFuncEach] using h
    have ihc := MarshalHTML_regular c hh.1
    have ih := marshalEach_regular rest hh.2
    ⟨Framed_cons_some c rest ihc.1 ih.1, Repeatable_cons_some c rest ihc.2 ih.1 ih.2⟩
end

/-- C6: for a tree built from elements, raw-text nodes and node lists (no `ComponentFunc`),
a first render into any buffer `buf` appends `out`, the bytes it appends to the empty
buffer; a second render of the tree the first one left, into any buffer `buf2`, appends
the same bytes `out`, ends the same way and leaves the tree exactly as the first render
left it (attribute list, classes, styles and children of every element). -/
theorem C6_render_idempotent (c : HTMLComponent) (h : noFunc c = true) (buf buf2 : Bytes) :
    (MarshalHTML c buf).buf = buf ++ (MarshalHTML c []).buf ∧
    (MarshalHTML (MarshalHTML c buf).node buf2).buf = buf2 ++ (MarshalHTML c []).buf ∧
    (MarshalHTML (MarshalHTML c buf).node buf2).node = (MarshalHTML c buf).node ∧
    (MarshalHTML (MarshalHTML c buf).node buf2).exit = (MarshalHTML c buf).exit := by
  obtain ⟨hF, hR⟩ := MarshalHTML_regular c h
  have e1 := hF buf
  have e2 := hR buf2
  have hn : (MarshalHTML c buf).node = (MarshalHTML c []).node := by rw [e1]
  have hx : (MarshalHTML c buf).exit = (MarshalHTML c []).exit := by rw [e1]
  refine ⟨by rw [e1], ?_, ?_, ?_⟩
  · rw [hn, e2]
  · rw [hn, e2]
  · rw [hn, hx, e2]

/-- Witness of C6: a node list holding a `p` with a class, a style and a text child, and a
nil entry.  The first render materialises `class` and `style` into the attribute list of
the `p` (which was empty); the second render appends the same bytes. -/
theorem C6_render_idempotent_witness :
    (MarshalHTML styledList []).buf = lit "\n<p class='menu' style='color:red;'>Hi</p>\n" ∧
    (MarshalHTML (MarshalHTML styledList []).node (lit "x")).buf
      = lit "x" ++ lit "\n<p class='menu' style='color:red;'>Hi</p>\n" ∧
    (MarshalHTML (MarshalHTML styledList []).node (lit "x")).node
      = (MarshalHTML styledList []).node ∧
    (MarshalHTML (MarshalHTML styledList []).node (lit "x")).exit = .nil :=
  have h := C6_render_idempotent styledList (by decide) [] (lit "x")
  have hb : (MarshalHTML styledList []).buf
      = lit "\n<p class='menu' style='color:red;'>Hi</p>\n" := by decide
  ⟨hb, h.2.1.trans (by rw [hb]), h.2.2.1, h.2.2.2.trans (by decide)⟩

/-! ## strings.TrimSpace -/

theorem dropGroups_one (one : Nat → Bool) (two : Nat → Nat → Bool)
    (three : Nat → Nat → Nat → Bool) (b0 : Nat) (rest : Bytes) (h : one b0 = true) :
    dropGroups one two three (b0 :: rest) = dropGroups one two three rest := by
  rw [dropGroups.eq_def]; simp [h]

theorem dropGroups_two (one : Nat → Bool) (two : Nat → Nat → Bool)
    (three : Nat → Nat → Nat → Bool) (b0 b1 : Nat) (rest : Bytes)
    (h : ¬ one b0 = true) (h2 : two b0 b1 = true) :
    dropGroups one two three (b0 :: b1 :: rest) = dropGroups one two three rest := by
  rw [dropGroups.eq_def]; simp [h, h2]

theorem dropGroups_three (one : Nat → Bool) (two : Nat → Nat → Bool)
    (three : Nat → Nat → Nat → Bool) (b0 b1 b2 : Nat) (rest : Bytes)
    (h : ¬ one b0 = true) (h2 : ¬ two b0 b1 = true) (h3 : three b0 b1 b2 = true) :
    dropGroups one two three (b0 :: b1 :: b2 :: rest) = dropGroups one two three rest := by
  rw [dropGroups.eq_def]; simp [h, h2, h3]

theorem dropGroups_keep1 (one : Nat → Bool) (two : Nat → Nat → Bool)
    (three : Nat → Nat → Nat → Bool) (b0 : Nat) (h : ¬ one b0 = true) :
    dropGroups one two three [b0] = [b0] := by
  rw [dropGroups.eq_def]; simp [h]

theorem dropGroups_keep2 (one : Nat → Bool) (two : Nat → Nat → Bool)
    (three : Nat → Nat → Nat → Bool) (b0 b1 : Nat)
    (h : ¬ one b0 = true) (h2 : ¬ two b0 b1 = true) :
    dropGroups one two three [b0, b1] = [b0, b1] := by
  rw [dropGroups.eq_def]; simp [h, h2]

theorem dropGroups_keep3 (one : Nat → Bool) (two : Nat → Nat → Bool)
    (three : Nat → Nat → Nat → Bool) (b0 b1 b2 : Nat) (rest : Bytes)
    (h : ¬ one b0 = true) (h2 : ¬ two b0 b1 = true) (h3 : ¬ three b0 b1 b2 = true) :
    dropGroups one two three (b0 :: b1 :: b2 :: rest) = b0 :: b1 :: b2 :: rest := by
  rw [dropGroups.eq_def]; simp [h, h2, h3]

theorem dropGroups_suffix (one : Nat → Bool) (two : Nat → Nat → Bool)
    (three : Nat → Nat → Nat → Bool) (s : Bytes) :
    ∃ q, s = q ++ dropGroups one two three s := by
  induction s using dropGroups.induct one two three with
  | case1 => exact ⟨[], rfl⟩
  | case2 b0 rest h ih =>
    obtain ⟨q, hq⟩ := ih
    exact ⟨b0 :: q, by rw [dropGroups_one _ _ _ _ _ h, List.cons_append, ← hq]⟩
  | case3 b0 h => exact ⟨[], by rw [dropGroups_keep1 _ _ _ _ h]; rfl⟩
  | case4 b0 h b1 rest h2 ih =>
    obtain ⟨q, hq⟩ := ih
    exact ⟨b0 :: b1 :: q, by
      rw [dropGroups_two _ _ _ _ _ _ h h2, List.cons_append, List.cons_append, ← hq]⟩
  | case5 b0 h b1 h2 => exact ⟨[], by rw [dropGroups_keep2 _ _ _ _ _ h h2]; rfl⟩
  | case6 b0 h b1 h2 b2 rest h3 ih =>
    obtain ⟨q, hq⟩ := ih
    exact ⟨b0 :: b1 :: b2 :: q, by
      rw [dropGroups_three _ _ _ _ _ _ _ h h2 h3, List.cons_append, List.cons_append,
        List.cons_append, ← hq]⟩
  | case7 b0 h b1 h2 b2 rest h3 =>
    exact ⟨[], by rw [dropGroups_keep3 _ _ _ _ _ _ _ h h2 h3]; rfl⟩

theorem dropGroups_clean (one : Nat → Bool) (two : Nat → Nat → Bool)
    (three : Nat → Nat → Nat → Bool) (s : Bytes) :
    dropGroups one two three s = [] ∨
      headGroup one two three (dropGroups one two three s) = false := by
  induction s using dropGroups.induct one two three with
  | case1 => left; rfl
  | case2 b0 rest h ih => rw [dropGroups_one _ _ _ _ _ h]; exact ih
  | case3 b0 h => right; rw [dropGroups_keep1 _ _ _ _ h]; simpa [headGroup] using h
  | case4 b0 h b1 rest h2 ih => rw [dropGroups_two _ _ _ _ _ _ h h2]; exact ih
  | case5 b0 h b1 h2 =>
    right; rw [dropGroups_keep2 _ _ _ _ _ h h2]; simp [headGroup, h, h2]
  | case6 b0 h b1 h2 b2 rest h3 ih => rw [dropGroups_three _ _ _ _ _ _ _ h h2 h3]; exact ih
  | case7 b0 h b1 h2 b2 rest h3 =>
    right; rw [dropGroups_keep3 _ _ _ _ _ _ _ h h2 h3]; simp [headGroup, h, h2, h3]

theorem dropGroups_fix (one : Nat → Bool) (two : Nat → Nat → Bool)
    (three : Nat → Nat → Nat → Bool) (s : Bytes)
    (hs : headGroup one two three s = false) : dropGroups one two three s = s := by
  match s, hs with
  | [], _ => rfl
  | [b0], hs =>
    simp [headGroup] at hs
    exact dropGroups_keep1 _ _ _ _ (by simp [hs])
  | [b0, b1], hs =>
    simp [headGroup] at hs
    exact dropGroups_keep2 _ _ _ _ _ (by simp [hs]) (by simp [hs])
  | b0 :: b1 :: b2 :: rest, hs =>
    simp [headGroup] at hs
    exact dropGroups_keep3 _ _ _ _ _ _ _ (by simp [hs]) (by simp [hs]) (by simp [hs])

theorem headGroup_append (one : Nat → Bool) (two : Nat → Nat → Bool)
    (three : Nat → Nat → Nat → Bool) (p q : Bytes)
    (hp : headGroup one two three p = true) : headGroup one two three (p ++ q) = true := by
  match p, hp with
  | [b0], hp =>
    simp [headGroup] at hp
    match q with
    | [] => simp [headGroup, hp]
    | [c0] => simp [headGroup, hp]
    | c0 :: c1 :: _ => simp [headGroup, hp]
  | [b0, b1], hp =>
    simp [headGroup] at hp
    match q with
    | [] => simpa [headGroup] using hp
    | c0 :: _ =>
      simp only [List.cons_append, List.nil_append, headGroup]
      rcases hp with hp | hp <;> simp [hp]
  | b0 :: b1 :: b2 :: rest, hp => simpa [headGroup] using hp

theorem headGroup_sep (one : Nat → Bool) (two : Nat → Nat → Bool)
    (three : Nat → Nat → Nat → Bool) (sep : Nat)
    (h2 : ∀ b, two b sep = false) (h3 : ∀ b c, three b sep c = false)
    (h4 : ∀ b c, three b c sep = false) (p q : Bytes) (hne : p ≠ [])
    (hp : headGroup one two three p = false) :
    headGroup one two three (p ++ sep :: q) = false := by
  match p, hne, hp with
  | [b0], _, hp =>
    simp [headGroup] at hp
    match q with
    | [] => simp [headGroup, hp, h2]
    | c0 :: _ => simp [headGroup, hp, h2, h3]
  | [b0, b1], _, hp =>
    simp [headGroup] at hp
    simp [headGroup, hp, h4]
  | b0 :: b1 :: b2 :: rest, _, hp => simpa [headGroup] using hp

theorem dropGroups_all (one : Nat → Bool) (two : Nat → Nat → Bool)
    (three : Nat → Nat → Nat → Bool) (r : Bytes) (hr : r ≠ [])
    (h : dropGroups one (fun c0 c1 => two c1 c0) (fun c0 c1 c2 => three c2 c1 c0) r = []) :
    headGroup one two three r.reverse = true := by
  induction r using dropGroups.induct one (fun c0 c1 => two c1 c0)
    (fun c0 c1 c2 => three c2 c1 c0) with
  | case1 => exact absurd rfl hr
  | case2 b0 rest h1 ih =>
    rw [dropGroups_one _ _ _ _ _ h1] at h
    by_cases hrest : rest = []
    · subst hrest; simpa [headGroup] using h1
    · rw [List.reverse_cons]
      exact headGroup_append _ _ _ _ _ (ih hrest h)
  | case3 b0 h1 => rw [dropGroups_keep1 _ _ _ _ h1] at h; simp at h
  | case4 b0 h1 b1 rest h2 ih =>
    rw [dropGroups_two _ _ _ _ _ _ h1 h2] at h
    by_cases hrest : rest = []
    · subst hrest
      simp only [List.reverse_cons, List.reverse_nil, List.nil_append, List.singleton_append,
        headGroup]
      simp [h2]
    · rw [List.reverse_cons, List.reverse_cons, List.append_assoc]
      exact headGroup_append _ _ _ _ _ (ih hrest h)
  | case5 b0 h1 b1 h2 => rw [dropGroups_keep2 _ _ _ _ _ h1 h2] at h; simp at h
  | case6 b0 h1 b1 h2 b2 rest h3 ih =>
    rw [dropGroups_three _ _ _ _ _ _ _ h1 h2 h3] at h
    by_cases hrest : rest = []
    · subst hrest
      simp only [List.reverse_cons, List.reverse_nil, List.nil_append, List.singleton_append,
        List.cons_append, headGroup]
      simp [h3]
    · rw [List.reverse_cons, List.reverse_cons, List.reverse_cons, List.append_assoc,
        List.append_assoc]
      exact headGroup_append _ _ _ _ _ (ih hrest h)
  | case7 b0 h1 b1 h2 b2 rest h3 =>
    rw [dropGroups_keep3 _ _ _ _ _ _ _ h1 h2 h3] at h; simp at h

theorem TrimLeftSpace_suffix (s : Bytes) : ∃ q, s = q ++ TrimLeftSpace s :=
  dropGroups_suffix _ _ _ s

theorem TrimRightSpace_front (s : Bytes) : ∃ q, s = TrimRightSpace s ++ q := by
  obtain ⟨q, hq⟩ := dropGroups_suffix isAsciiSpace (fun c0 c1 => isSpace2 c1 c0)
    (fun c0 c1 c2 => isSpace3 c2 c1 c0) s.reverse
  refine ⟨q.reverse, ?_⟩
  have := congrArg List.reverse hq
  simpa [TrimRightSpace] using this

theorem TrimSpace_mem (s : Bytes) (x : Nat) (hx : x ∈ TrimSpace s) : x ∈ s := by
  obtain ⟨q1, h1⟩ := TrimLeftSpace_suffix s
  obtain ⟨q2, h2⟩ := TrimRightSpace_front (TrimLeftSpace s)
  have hx2 : x ∈ TrimLeftSpace s := by
    rw [h2]; exact List.mem_append_left _ hx
  rw [h1]; exact List.mem_append_right _ hx2

theorem TrimSpace_clean (s : Bytes) :
    TrimSpace s = [] ∨
      (startsWithSpace (TrimSpace s) = false ∧ endsWithSpace (TrimSpace s) = false) := by
  by_cases hnil : TrimSpace s = []
  · left; exact hnil
  right
  constructor
  · rcases dropGroups_clean isAsciiSpace isSpace2 isSpace3 s with h | h
    · exact absurd (by simp [TrimSpace, TrimLeftSpace, h, TrimRightSpace, dropGroups]) hnil
    · obtain ⟨q, hq⟩ := TrimRightSpace_front (TrimLeftSpace s)
      by_contra hcon
      have hst : startsWithSpace (TrimSpace s) = true := by simpa using hcon
      have := headGroup_append isAsciiSpace isSpace2 isSpace3 (TrimSpace s) q hst
      have h' : headGroup isAsciiSpace isSpace2 isSpace3 (TrimLeftSpace s) = false := h
      rw [hq] at h'
      rw [show TrimRightSpace (TrimLeftSpace s) = TrimSpace s from rfl] at h'
      rw [this] at h'
      exact absurd h' (by simp)
  · rcases dropGroups_clean isAsciiSpace (fun c0 c1 => isSpace2 c1 c0)
      (fun c0 c1 c2 => isSpace3 c2 c1 c0) (TrimLeftSpace s).reverse with h | h
    · exact absurd (by simp [TrimSpace, TrimRightSpace, h]) hnil
    · simpa [endsWithSpace, TrimSpace, TrimRightSpace] using h

theorem TrimSpace_fix (s : Bytes) (h1 : startsWithSpace s = false)
    (h2 : endsWithSpace s = false) : TrimSpace s = s := by
  have e1 : TrimLeftSpace s = s := dropGroups_fix _ _ _ s h1
  have e2 := dropGroups_fix _ _ _ s.reverse h2
  simp [TrimSpace, TrimRightSpace, e1, e2]

theorem TrimLeftSpace_nil_of_TrimSpace_nil (s : Bytes) (h : TrimSpace s = []) :
    TrimLeftSpace s = [] := by
  by_contra hne
  have hrev : (TrimLeftSpace s).reverse ≠ [] := by simpa using hne
  have h0 : dropGroups isAsciiSpace (fun c0 c1 => isSpace2 c1 c0)
      (fun c0 c1 c2 => isSpace3 c2 c1 c0) (TrimLeftSpace s).reverse = [] := by
    simpa [TrimSpace, TrimRightSpace] using h
  have hst := dropGroups_all isAsciiSpace isSpace2 isSpace3 _ hrev h0
  rw [List.reverse_reverse] at hst
  rcases dropGroups_clean isAsciiSpace isSpace2 isSpace3 s with h' | h'
  · exact hne h'
  · have h'' : headGroup isAsciiSpace isSpace2 isSpace3 (TrimLeftSpace s) = false := h'
    rw [hst] at h''
    exact absurd h'' (by simp)

/-! ## strings.Split and strings.Join -/

theorem Split_ne_nil (s : Bytes) (sep : Nat) : Split s sep ≠ [] := by
  cases s with
  | nil => simp [Split]
  | cons c rest =>
    rw [Split]
    split_ifs
    · simp
    · split <;> simp

theorem Split_cons_ne (c : Nat) (rest : Bytes) (sep : Nat) (h : c ≠ sep) :
    ∃ q qs, Split rest sep = q :: qs ∧ Split (c :: rest) sep = (c :: q) :: qs := by
  cases hs : Split rest sep with
  | nil => exact absurd hs (Split_ne_nil rest sep)
  | cons q qs => exact ⟨q, qs, rfl, by rw [Split, if_neg h, hs]⟩

theorem Split_cons_eq (rest : Bytes) (sep : Nat) :
    Split (sep :: rest) sep = [] :: Split rest sep := by
  rw [Split, if_pos rfl]

theorem Split_append (a b : Bytes) (sep : Nat) :
    Split (a ++ sep :: b) sep = Split a sep ++ Split b sep := by
  induction a with
  | nil => simp [Split]
  | cons c a ih =>
    by_cases h : c = sep
    · subst h
      rw [List.cons_append, Split_cons_eq, Split_cons_eq, ih]; rfl
    · obtain ⟨q, qs, h1, h2⟩ := Split_cons_ne c a sep h
      obtain ⟨q', qs', h1', h2'⟩ := Split_cons_ne c (a ++ sep :: b) sep h
      rw [List.cons_append, h2', h2]
      rw [ih, h1] at h1'
      simp only [List.cons_append, List.cons.injEq] at h1'
      rw [← h1'.1, ← h1'.2]; rfl

theorem Split_no_sep (s : Bytes) (sep : Nat) : ∀ p ∈ Split s sep, sep ∉ p := by
  induction s with
  | nil => simp [Split]
  | cons c rest ih =>
    by_cases h : c = sep
    · subst h
      rw [Split_cons_eq]
      intro p hp
      rcases List.mem_cons.mp hp with hp | hp
      · subst hp; simp
      · exact ih p hp
    · obtain ⟨q, qs, h1, h2⟩ := Split_cons_ne c rest sep h
      rw [h2]
      rw [h1] at ih
      intro p hp
      rcases List.mem_cons.mp hp with hp | hp
      · subst hp
        have := ih q (List.mem_cons_self _ _)
        simp [this, Ne.symm h]
      · exact ih p (List.mem_cons_of_mem _ hp)

theorem isSpace2_ne (b0 b1 : Nat) (h : isSpace2 b0 b1 = true) : b0 ≠ 32 ∧ b1 ≠ 32 := by
  simp only [isSpace2, Bool.and_eq_true, Bool.or_eq_true, decide_eq_true_eq] at h
  omega

theorem isSpace3_ne (b0 b1 b2 : Nat) (h : isSpace3 b0 b1 b2 = true) :
    b0 ≠ 32 ∧ b1 ≠ 32 ∧ b2 ≠ 32 := by
  simp only [isSpace3, Bool.and_eq_true, Bool.or_eq_true, decide_eq_true_eq] at h
  omega

theorem TrimLeftSpace_pieces (n : Bytes) (h : TrimLeftSpace n = []) :
    ∀ p ∈ Split n 32, TrimLeftSpace p = [] := by
  unfold TrimLeftSpace at h ⊢
  induction n using dropGroups.induct isAsciiSpace isSpace2 isSpace3 with
  | case1 => simp [Split, dropGroups]
  | case2 b0 rest h1 ih =>
    rw [dropGroups_one _ _ _ _ _ h1] at h
    by_cases hb : b0 = 32
    · subst hb
      rw [Split_cons_eq]
      intro p hp
      rcases List.mem_cons.mp hp with hp | hp
      · subst hp; rfl
      · exact ih h p hp
    · obtain ⟨q, qs, e1, e2⟩ := Split_cons_ne b0 rest 32 hb
      rw [e2]
      have ih' := ih h
      rw [e1] at ih'
      intro p hp
      rcases List.mem_cons.mp hp with hp | hp
      · subst hp
        rw [dropGroups_one _ _ _ _ _ h1]
        exact ih' q (List.mem_cons_self _ _)
      · exact ih' p (List.mem_cons_of_mem _ hp)
  | case3 b0 h1 => rw [dropGroups_keep1 _ _ _ _ h1] at h; simp at h
  | case4 b0 h1 b1 rest h2 ih =>
    rw [dropGroups_two _ _ _ _ _ _ h1 h2] at h
    obtain ⟨hb0, hb1⟩ := isSpace2_ne b0 b1 h2
    obtain ⟨q, qs, e1, e2⟩ := Split_cons_ne b1 rest 32 hb1
    obtain ⟨q', qs', e1', e2'⟩ := Split_cons_ne b0 (b1 :: rest) 32 hb0
    rw [e2] at e1'
    simp only [List.cons.injEq] at e1'
    rw [e2', ← e1'.1, ← e1'.2]
    have ih' := ih h
    rw [e1] at ih'
    intro p hp
    rcases List.mem_cons.mp hp with hp | hp
    · subst hp
      rw [dropGroups_two _ _ _ _ _ _ h1 h2]
      exact ih' q (List.mem_cons_self _ _)
    · exact ih' p (List.mem_cons_of_mem _ hp)
  | case5 b0 h1 b1 h2 => rw [dropGroups_keep2 _ _ _ _ _ h1 h2] at h; simp at h
  | case6 b0 h1 b1 h2 b2 rest h3 ih =>
    rw [dropGroups_three _ _ _ _ _ _ _ h1 h2 h3] at h
    obtain ⟨hb0, hb1, hb2⟩ := isSpace3_ne b0 b1 b2 h3
    obtain ⟨q, qs, e1, e2⟩ := Split_cons_ne b2 rest 32 hb2
    obtain ⟨q', qs', e1', e2'⟩ := Split_cons_ne b1 (b2 :: rest) 32 hb1
    obtain ⟨q'', qs'', e1'', e2''⟩ := Split_cons_ne b0 (b1 :: b2 :: rest) 32 hb0
    rw [e2] at e1'
    simp only [List.cons.injEq] at e1'
    rw [e2', ← e1'.1, ← e1'.2] at e1''
    simp only [List.cons.injEq] at e1''
    rw [e2'', ← e1''.1, ← e1''.2]
    have ih' := ih h
    rw [e1] at ih'
    intro p hp
    rcases List.mem_cons.mp hp with hp | hp
    · subst hp
      rw [dropGroups_three _ _ _ _ _ _ _ h1 h2 h3]
      exact ih' q (List.mem_cons_self _ _)
    · exact ih' p (List.mem_cons_of_mem _ hp)
  | case7 b0 h1 b1 h2 b2 rest h3 =>
    rw [dropGroups_keep3 _ _ _ _ _ _ _ h1 h2 h3] at h; simp at h

theorem Join_cons_cons (a b : Bytes) (rest : List Bytes) (sep : Bytes) :
    Join (a :: b :: rest) sep = a ++ sep ++ Join (b :: rest) sep := by
  rw [Join]

theorem Join_concat (ts : List Bytes) (t sep : Bytes) (h : ts ≠ []) :
    Join (ts ++ [t]) sep = Join ts sep ++ sep ++ t := by
  induction ts with
  | nil => exact absurd rfl h
  | cons a rest ih =>
    cases rest with
    | nil => simp [Join]
    | cons b rest2 =>
      rw [List.cons_append, List.cons_append, Join_cons_cons, Join_cons_cons,
        ← List.cons_append, ih (by simp)]
      simp

theorem Join_head (a : Bytes) (rest : List Bytes) (sep : Bytes) :
    ∃ w, Join (a :: rest) sep = a ++ w := by
  cases rest with
  | nil => exact ⟨[], by simp [Join]⟩
  | cons b rest2 => exact ⟨sep ++ Join (b :: rest2) sep, by rw [Join_cons_cons]; simp⟩

theorem Join_ne_nil (ts : List Bytes) (sep : Bytes) (h : ts ≠ [])
    (hne : ∀ t ∈ ts, t ≠ []) : Join ts sep ≠ [] := by
  cases ts with
  | nil => exact absurd rfl h
  | cons a rest =>
    obtain ⟨w, hw⟩ := Join_head a rest sep
    rw [hw]
    have := hne a (List.mem_cons_self _ _)
    simp [this]

theorem startsWithSpace_Join (ts : List Bytes) (h : ∀ t ∈ ts, CleanToken t) :
    startsWithSpace (Join ts [32]) = false := by
  cases ts with
  | nil => rfl
  | cons a rest =>
    have ha := h a (List.mem_cons_self _ _)
    cases rest with
    | nil => simpa [Join] using ha.2.2.1
    | cons b rest2 =>
      rw [Join_cons_cons, List.append_assoc, List.singleton_append]
      exact headGroup_sep _ _ _ 32 (by simp [isSpace2]) (by simp [isSpace3])
        (by simp [isSpace3]) a _ ha.1 ha.2.2.1

theorem endsWithSpace_Join (ts : List Bytes) (h : ∀ t ∈ ts, CleanToken t) :
    endsWithSpace (Join ts [32]) = false := by
  rcases List.eq_nil_or_concat ts with hnil | ⟨init, last, hts⟩
  · subst hnil; rfl
  · rw [List.concat_eq_append] at hts
    subst hts
    have hl := h last (by simp)
    by_cases hi : init = []
    · subst hi; simpa [Join] using hl.2.2.2
    · rw [Join_concat _ _ _ hi]
      unfold endsWithSpace
      rw [List.reverse_append, List.reverse_append, List.reverse_singleton,
        List.singleton_append]
      exact headGroup_sep _ _ _ 32 (by simp [isSpace2]) (by simp [isSpace3])
        (by simp [isSpace3]) last.reverse _ (by simpa using hl.1) hl.2.2.2

theorem NoDoubleSpace_of_no_space (l : Bytes) (h : 32 ∉ l) : NoDoubleSpace l := by
  unfold NoDoubleSpace
  induction l with
  | nil => exact List.chain'_nil
  | cons a rest ih =>
    have ha : a ≠ 32 := fun e => h (by simp [e])
    have hr : 32 ∉ rest := fun e => h (List.mem_cons_of_mem _ e)
    refine List.Chain'.cons' (ih hr) ?_
    intro y _ hcon
    exact ha hcon.1

theorem NoDoubleSpace_Join (ts : List Bytes) (h : ∀ t ∈ ts, CleanToken t) :
    NoDoubleSpace (Join ts [32]) := by
  induction ts with
  | nil => exact List.chain'_nil
  | cons a rest ih =>
    have ha := h a (List.mem_cons_self _ _)
    cases rest with
    | nil => simpa [Join] using NoDoubleSpace_of_no_space a ha.2.1
    | cons b rest2 =>
      have hb := h b (by simp)
      have ihr := ih (fun t ht => h t (List.mem_cons_of_mem _ ht))
      obtain ⟨w, hw⟩ := Join_head b rest2 [32]
      rw [Join_cons_cons, List.append_assoc]
      unfold NoDoubleSpace at ihr ⊢
      refine List.Chain'.append (NoDoubleSpace_of_no_space a ha.2.1) ?_ ?_
      · rw [List.singleton_append]
        refine List.Chain'.cons' ihr ?_
        intro y hy hcon
        rw [hw] at hy
        cases b with
        | nil => exact hb.1 rfl
        | cons y0 b' =>
          simp only [List.cons_append, List.head?_cons, Option.mem_def, Option.some.injEq] at hy
          subst hy
          exact hb.2.1 (by simp [hcon.2])
      · intro x hx y _ hcon
        have hxa : x ∈ a := List.mem_of_mem_getLast? hx
        exact ha.2.1 (by rw [← hcon.1]; exact hxa)

/-! ## Class -/

theorem addClassPieces_eq (cn ps : List Bytes) :
    addClassPieces cn ps
      = cn ++ (ps.map TrimSpace).filter (fun t => decide (t.length > 0)) := by
  induction ps generalizing cn with
  | nil => simp [addClassPieces]
  | cons p rest ih =>
    simp only [addClassPieces, List.map_cons]
    split_ifs with h
    · rw [ih, List.filter_cons_of_pos (by simpa using h)]; simp
    · rw [ih, List.filter_cons_of_neg (by simpa using h)]

theorem addClassNames_eq (cn names : List Bytes) :
    addClassNames cn names = cn ++ names.flatMap classTokens := by
  induction names generalizing cn with
  | nil => simp [addClassNames]
  | cons n rest ih =>
    rw [addClassNames, ih, addClassPieces_eq, List.flatMap_cons, List.append_assoc]
    rfl

theorem classTokens_append (a c : Bytes) :
    classTokens (a ++ [32] ++ c) = classTokens a ++ classTokens c := by
  unfold classTokens
  rw [List.append_assoc, List.singleton_append, Split_append, List.map_append,
    List.filter_append]

theorem classTokens_clean (n t : Bytes) (h : t ∈ classTokens n) : CleanToken t := by
  unfold classTokens at h
  rw [List.mem_filter, List.mem_map] at h
  obtain ⟨⟨p, hp, hpt⟩, hlen⟩ := h
  have hne : t ≠ [] := by
    intro e; subst e; simp at hlen
  have hsp : 32 ∉ t := by
    intro h32
    rw [← hpt] at h32
    exact Split_no_sep n 32 p hp (TrimSpace_mem p 32 h32)
  rcases TrimSpace_clean p with h0 | ⟨h1, h2⟩
  · rw [hpt] at h0; exact absurd h0 hne
  · rw [hpt] at h1 h2
    exact ⟨hne, hsp, h1, h2⟩

theorem classTokens_blank (n : Bytes) (h : TrimSpace n = []) : classTokens n = [] := by
  unfold classTokens
  rw [List.filter_eq_nil_iff]
  intro t ht
  rw [List.mem_map] at ht
  obtain ⟨p, hp, hpt⟩ := ht
  have h1 := TrimLeftSpace_pieces n (TrimLeftSpace_nil_of_TrimSpace_nil n h) p hp
  have : TrimSpace p = [] := by
    unfold TrimSpace TrimRightSpace
    rw [h1]; rfl
  rw [← hpt, this]; simp

theorem classValue_eq (ts : List Bytes) (h : ∀ t ∈ ts, CleanToken t) :
    TrimSpace (Join ts [32]) = Join ts [32] :=
  TrimSpace_fix _ (startsWithSpace_Join ts h) (endsWithSpace_Join ts h)

theorem flatMap_classTokens_clean (names : List Bytes) :
    ∀ t ∈ names.flatMap classTokens, CleanToken t := by
  intro t ht
  rw [List.mem_flatMap] at ht
  obtain ⟨n, _, hn⟩ := ht
  exact classTokens_clean n t hn

theorem Class_classNames {χ : Type} (b : HTMLTagBuilder χ) (names : List Bytes) :
    (b.Class names).classNames = b.classNames ++ names.flatMap classTokens := by
  simp [HTMLTagBuilder.Class, HTMLTagBuilder.addClass, addClassNames_eq]

theorem materializedAttrs_Tag_Class (t : Bytes) (names : List Bytes) :
    materializedAttrs ((Tag t : HTMLTagBuilder HTMLComponent).Class names)
      = if names.flatMap classTokens = [] then []
        else [⟨lit "class", .str (Join (names.flatMap classTokens) [32])⟩] := by
  have hsp : lit " " = [32] := by decide
  have hcn : ((Tag t : HTMLTagBuilder HTMLComponent).Class names).classNames
      = names.flatMap classTokens := by
    rw [Class_classNames]; rfl
  have hst : ((Tag t : HTMLTagBuilder HTMLComponent).Class names).styles = [] := rfl
  have hat : ((Tag t : HTMLTagBuilder HTMLComponent).Class names).attrs = [] := rfl
  have hts : TrimSpace (Join [] (lit "; ")) = [] := by decide
  rw [materializedAttrs_eq, hcn, hst, hat, hts, hsp,
    classValue_eq _ (flatMap_classTokens_clean names)]
  by_cases h : names.flatMap classTokens = []
  · simp [h, Join]
  · have hne : Join (names.flatMap classTokens) [32] ≠ [] :=
      Join_ne_nil _ _ h (fun t ht => (flatMap_classTokens_clean names t ht).1)
    have hlen : (Join (names.flatMap classTokens) [32]).length > 0 :=
      List.length_pos.mpr hne
    simp [h, hlen, setAttrList]

/-- C7: `Class(xs ++ ys)` leaves the builder as `Class(xs)` followed by `Class(ys)` does,
and `Class(a ++ " " ++ c)` as `Class(a, c)` does; the class names after a call are the
ones before it followed by the tokens of the names in the order given, duplicates kept.
An element built with `Tag(t)` and `Class` calls renders the class attribute with the
accumulated tokens joined by single spaces as its value (and no class attribute when there
is no token); so `Class("a b", "a")` renders `class='a b a'`. -/
theorem C7_class_order {χ : Type} (b : HTMLTagBuilder χ) :
    (∀ xs ys : List Bytes, b.Class (xs ++ ys) = (b.Class xs).Class ys) ∧
    (∀ a c : Bytes, b.Class [a ++ lit " " ++ c] = b.Class [a, c]) ∧
    (∀ names : List Bytes,
      (b.Class names).classNames = b.classNames ++ names.flatMap classTokens) ∧
    (∀ (t : Bytes) (names : List Bytes) (buf : Bytes),
      (MarshalHTML (.tag ((Tag t).Class names)) buf).buf
        = buf ++ lit "\n<" ++ t
          ++ (if names.flatMap classTokens = [] then []
              else lit " class='"
                ++ appendEscapeAttr [] (Join (names.flatMap classTokens) (lit " ")) ++ lit "'")
          ++ lit "></" ++ t ++ lit ">\n") ∧
    (MarshalHTML (.tag ((Tag (lit "p")).Class [lit "a b", lit "a"])) []).buf
      = lit "\n<p class='a b a'></p>\n" := by
  have hsp : lit " " = [32] := by decide
  refine ⟨?_, ?_, Class_classNames b, ?_, by decide⟩
  · intro xs ys
    simp [HTMLTagBuilder.Class, HTMLTagBuilder.addClass, addClassNames_eq,
      List.flatMap_append]
  · intro a c
    have e := classTokens_append a c
    rw [List.append_assoc, List.singleton_append] at e
    simp [HTMLTagBuilder.Class, HTMLTagBuilder.addClass, addClassNames_eq, hsp, e]
  · intro t names buf
    have h1 : lit "\n<" = [10, 60] := by decide
    have h2 : lit " class='" = [32] ++ appendEscapeAttr [] (lit "class") ++ [61, 39] := by decide
    have h3 : lit "'" = [39] := by decide
    have h4 : lit "></" = [62, 60, 47] := by decide
    have h5 : lit ">\n" = [62, 10] := by decide
    have htag : ((Tag t : HTMLTagBuilder HTMLComponent).Class names).tag = t := rfl
    have hch : ((Tag t : HTMLTagBuilder HTMLComponent).Class names).children = [] := rfl
    have hom : ((Tag t : HTMLTagBuilder HTMLComponent).Class names).omitEndTag = false := rfl
    rw [MarshalHTML_tag, materializedAttrs_Tag_Class, writeAttrs_buf, htag, hch, hom,
      h1, h2, h3, h4, h5, hsp]
    by_cases h : names.flatMap classTokens = []
    · simp [h, writeAttrs, marshalEach_nil]
    · simp only [h, if_false, writeAttrs, coerce]
      have hne : Join (names.flatMap classTokens) [32] ≠ [] :=
        Join_ne_nil _ _ h (fun t ht => (flatMap_classTokens_clean names t ht).1)
      have hlen : ¬ (Join (names.flatMap classTokens) [32]).length = 0 := by
        simpa [List.length_eq_zero] using hne
      simp only [hlen, false_and, if_false, Bool.false_eq_true, marshalEach_nil]
      rw [appendEscapeAttr_buf (_ ++ [61, 39]), appendEscapeAttr_buf ([] ++ [32])]
      simp

/-- C8: every token that `Class` or `ClassIf` appends to the class names is not empty, has
no space byte and has neither leading nor trailing white space; the existing class names
are kept in front.  Names that are empty or consist only of white space (`TrimSpace` of
the name is empty) leave the builder unchanged.  `Class("menu", "", "  extra  ")` renders
`class='menu extra'`, and the class value of an element built with `Tag` and `Class` has
no leading or trailing white space and no two adjacent spaces. -/
theorem C8_class_tokens_clean {χ : Type} (b : HTMLTagBuilder χ) (names : List Bytes) :
    (∃ added : List Bytes,
      (b.Class names).classNames = b.classNames ++ added ∧ ∀ t ∈ added, CleanToken t) ∧
    (∀ (name : Bytes) (add : Bool), ∃ added : List Bytes,
      (b.ClassIf name add).classNames = b.classNames ++ added ∧ ∀ t ∈ added, CleanToken t) ∧
    ((∀ n ∈ names, TrimSpace n = []) → b.Class names = b) ∧
    (MarshalHTML (.tag ((Tag (lit "div")).Class [lit "menu", lit "", lit "  extra  "])) []).buf
      = lit "\n<div class='menu extra'></div>\n" ∧
    (∀ t : Bytes,
      startsWithSpace
          (TrimSpace (Join ((Tag t : HTMLTagBuilder χ).Class names).classNames (lit " "))) = false ∧
      endsWithSpace
          (TrimSpace (Join ((Tag t : HTMLTagBuilder χ).Class names).classNames (lit " "))) = false ∧
      NoDoubleSpace
          (TrimSpace (Join ((Tag t : HTMLTagBuilder χ).Class names).classNames (lit " ")))) := by
  have hsp : lit " " = [32] := by decide
  refine ⟨⟨_, Class_classNames b names, flatMap_classTokens_clean names⟩, ?_, ?_,
    by decide, ?_⟩
  · intro name add
    cases add with
    | false => exact ⟨[], by simp [HTMLTagBuilder.ClassIf], by simp⟩
    | true =>
      refine ⟨[name].flatMap classTokens, ?_, flatMap_classTokens_clean [name]⟩
      have := Class_classNames b [name]
      simpa [HTMLTagBuilder.ClassIf, HTMLTagBuilder.Class] using this
  · intro hblank
    have hnil : names.flatMap classTokens = [] := by
      rw [List.flatMap_eq_nil_iff]
      exact fun n hn => classTokens_blank n (hblank n hn)
    cases b with
    | mk tag omitEndTag attrs styles classNames children =>
      simp [HTMLTagBuilder.Class, HTMLTagBuilder.addClass, addClassNames_eq, hnil]
  · intro t
    have hcn : ((Tag t : HTMLTagBuilder χ).Class names).classNames
        = names.flatMap classTokens := by
      rw [Class_classNames]; rfl
    rw [hcn, hsp, classValue_eq _ (flatMap_classTokens_clean names)]
    exact ⟨startsWithSpace_Join _ (flatMap_classTokens_clean names),
      endsWithSpace_Join _ (flatMap_classTokens_clean names),
      NoDoubleSpace_Join _ (flatMap_classTokens_clean names)⟩

/-- Witness of C8: the names of the scenario give the two clean tokens `menu` and `extra`,
and the empty name, two spaces and a tab leave `Tag("div")` unchanged. -/
theorem C8_class_tokens_clean_witness :
    ((Tag (lit "div") : HTMLTagBuilder HTMLComponent).Class [lit "", lit "  ", lit "\t"])
      = Tag (lit "div") ∧
    ∃ added : List Bytes,
      ((Tag (lit "div") : HTMLTagBuilder HTMLComponent).Class
          [lit "", lit "  ", lit "\t"]).classNames
        = (Tag (lit "div") : HTMLTagBuilder HTMLComponent).classNames ++ added ∧
      ∀ t ∈ added, CleanToken t :=
  have h := C8_class_tokens_clean (Tag (lit "div") : HTMLTagBuilder HTMLComponent)
    [lit "", lit "  ", lit "\t"]
  ⟨h.2.2.1 (by decide), h.1⟩

/-! ## Children and node lists -/

theorem marshalEach_append (l1 l2 : List (Option HTMLComponent)) (buf : Bytes) :
    marshalEach (l1 ++ l2) buf
      = match (marshalEach l1 buf).exit with
        | .nil =>
          ⟨(marshalEach l1 buf).node ++ (marshalEach l2 (marshalEach l1 buf).buf).node,
            (marshalEach l2 (marshalEach l1 buf).buf).buf,
            (marshalEach l2 (marshalEach l1 buf).buf).exit⟩
        | e => ⟨(marshalEach l1 buf).node ++ l2, (marshalEach l1 buf).buf, e⟩ := by
  induction l1 generalizing buf with
  | nil => simp [marshalEach_nil]
  | cons c rest ih =>
    cases c with
    | none =>
      rw [List.cons_append, marshalEach_cons_none, marshalEach_cons_none, ih buf]
      cases (marshalEach rest buf).exit <;> simp
    | some c =>
      rw [List.cons_append, marshalEach_cons_some, marshalEach_cons_some]
      cases hE : (MarshalHTML c buf).exit with
      | nil =>
        simp only []
        rw [ih (MarshalHTML c buf).buf]
        cases (marshalEach rest (MarshalHTML c buf).buf).exit <;> simp
      | error e => simp
      | panic q => simp

theorem marshalEach_fail_at (before after : List (Option HTMLComponent)) (c : HTMLComponent)
    (buf : Bytes) (hbefore : (marshalEach before buf).exit = .nil)
    (hc : (MarshalHTML c (marshalEach before buf).buf).exit ≠ .nil) :
    marshalEach (before ++ some c :: after) buf
      = ⟨(marshalEach before buf).node
            ++ some (MarshalHTML c (marshalEach before buf).buf).node :: after,
          (MarshalHTML c (marshalEach before buf).buf).buf,
          (MarshalHTML c (marshalEach before buf).buf).exit⟩ := by
  rw [marshalEach_append, hbefore]
  simp only []
  rw [marshalEach_cons_some]
  cases hE : (MarshalHTML c (marshalEach before buf).buf).exit with
  | nil => exact absurd hE hc
  | error e => rfl
  | panic q => rfl

/-- C11, for attribute values that serialise: let an element have no `omitEndTag`, no
attribute value (once class and style are materialised) on which `JSONString` panics, and
the children `before ++ c :: after`, where the children `before` all return nil and `c`
returns the error `e`.  Then `MarshalHTML` of the element returns exactly `e`; the buffer is
the one `c` left (nothing of `after` and no end tag is appended) and the children `after`
are left as they were.  The same holds for a node list `before ++ c :: after`.  When the
loop over the children ends with nil, the element returns nil, and a node list returns
what its loop returns. -/
theorem C11_fail_fast (b : HTMLTagBuilder HTMLComponent)
    (before after : List (Option HTMLComponent)) (c : HTMLComponent) (e : GoError)
    (buf : Bytes)
    (hend : b.omitEndTag = false)
    (hjson : ∀ a ∈ materializedAttrs b, ∀ err, a.value ≠ .other (.fail err))
    (hch : b.children = before ++ some c :: after)
    (hbefore : (marshalEach before (buf ++ [10, 60] ++ b.tag ++ attrBytes b ++ [62])).exit
                = .nil)
    (hc : (MarshalHTML c
            (marshalEach before (buf ++ [10, 60] ++ b.tag ++ attrBytes b ++ [62])).buf).exit
          = .error e) :
    (MarshalHTML (.tag b) buf).exit = .error e ∧
    (MarshalHTML (.tag b) buf).buf
      = (MarshalHTML c
          (marshalEach before (buf ++ [10, 60] ++ b.tag ++ attrBytes b ++ [62])).buf).buf ∧
    (MarshalHTML (.tag b) buf).node
      = .tag { b with
          attrs := materializedAttrs b,
          children :=
            (marshalEach before (buf ++ [10, 60] ++ b.tag ++ attrBytes b ++ [62])).node
              ++ some (MarshalHTML c
                  (marshalEach before
                    (buf ++ [10, 60] ++ b.tag ++ attrBytes b ++ [62])).buf).node :: after } ∧
    (∀ (l1 l2 : List (Option HTMLComponent)) (d : HTMLComponent) (err : GoError)
        (buf0 : Bytes),
      (marshalEach l1 buf0).exit = .nil →
      (MarshalHTML d (marshalEach l1 buf0).buf).exit = .error err →
      MarshalHTML (.comps (l1 ++ some d :: l2)) buf0
        = ⟨.comps ((marshalEach l1 buf0).node
              ++ some (MarshalHTML d (marshalEach l1 buf0).buf).node :: l2),
            (MarshalHTML d (marshalEach l1 buf0).buf).buf, .error err⟩) ∧
    (∀ (b2 : HTMLTagBuilder HTMLComponent) (buf0 : Bytes),
      b2.omitEndTag = false →
      (∀ a ∈ materializedAttrs b2, ∀ err, a.value ≠ .other (.fail err)) →
      (marshalEach b2.children (buf0 ++ [10, 60] ++ b2.tag ++ attrBytes b2 ++ [62])).exit
        = .nil →
      (MarshalHTML (.tag b2) buf0).exit = .nil) ∧
    (∀ (hcs : List (Option HTMLComponent)) (buf0 : Bytes),
      (MarshalHTML (.comps hcs) buf0).exit = (marshalEach hcs buf0).exit) := by
  have hne : (MarshalHTML c
      (marshalEach before (buf ++ [10, 60] ++ b.tag ++ attrBytes b ++ [62])).buf).exit
      ≠ .nil := by rw [hc]; simp
  have hfail := marshalEach_fail_at before after c _ hbefore hne
  have key : MarshalHTML (.tag b) buf
      = ⟨.tag { b with
            attrs := materializedAttrs b,
            children :=
              (marshalEach before (buf ++ [10, 60] ++ b.tag ++ attrBytes b ++ [62])).node
                ++ some (MarshalHTML c
                    (marshalEach before
                      (buf ++ [10, 60] ++ b.tag ++ attrBytes b ++ [62])).buf).node :: after },
          (MarshalHTML c
            (marshalEach before (buf ++ [10, 60] ++ b.tag ++ attrBytes b ++ [62])).buf).buf,
          .error e⟩ := by
    rw [MarshalHTML_tag, writeAttrs_buf]
    have h2 := writeAttrs_ok (materializedAttrs b) [] hjson
    have hb : (writeAttrs (materializedAttrs b) []).1 = attrBytes b := rfl
    rw [h2, hb]
    simp only [hend, Bool.false_eq_true, if_false]
    rw [hch, hfail, hc]
  refine ⟨by rw [key], by rw [key], by rw [key], ?_, ?_, ?_⟩
  · intro l1 l2 d err buf0 h1 hd
    have hne2 : (MarshalHTML d (marshalEach l1 buf0).buf).exit ≠ .nil := by rw [hd]; simp
    rw [MarshalHTML_comps, marshalEach_fail_at l1 l2 d buf0 h1 hne2, hd]
  · intro b2 buf0 hend2 hjson2 hnil
    rw [MarshalHTML_tag, writeAttrs_buf]
    have h2 := writeAttrs_ok (materializedAttrs b2) [] hjson2
    have hb : (writeAttrs (materializedAttrs b2) []).1 = attrBytes b2 := rfl
    rw [h2, hb]
    simp only [hend2, Bool.false_eq_true, if_false, hnil]
  · intro hcs buf0
    rw [MarshalHTML_comps]

/-- Witness of C11: the `ul` with the children `a`, nil, the failing function and `b`
returns the error of the function; the end tag and `b` are not written. -/
theorem C11_fail_fast_witness :
    (MarshalHTML (.tag failingUl) []).exit = .error ⟨lit "boom"⟩ ∧
    (MarshalHTML (.tag failingUl) []).buf = lit "\n<ul id='l'>aoops" :=
  have hattrs : materializedAttrs failingUl = [⟨lit "id", .str (lit "l")⟩] := by decide
  have h := C11_fail_fast failingUl [some (Text (lit "a")), none]
    [some (Text (lit "b"))] failingChild ⟨lit "boom"⟩ [] rfl
    (by rw [hattrs]; intro a ha err; simp at ha; subst ha; simp) rfl (by decide) (by decide)
  ⟨h.1, h.2.1.trans (by decide)⟩

/-- C11 as stated fails: a `div` without `omitEndTag` whose only child returns the error
`boom`, but with an attribute value on which `sonic.Marshal` fails, does not return `boom`:
the call panics before any child is rendered. -/
theorem C11_counterexample :
    badJSONDivFailingChild.omitEndTag = false ∧
    badJSONDivFailingChild.children = [some failingChild] ∧
    (∀ buf : Bytes, (MarshalHTML failingChild buf).exit = .error ⟨lit "boom"⟩) ∧
    (MarshalHTML (.tag badJSONDivFailingChild) []).exit = .panic (.error ⟨lit "failure"⟩) ∧
    (MarshalHTML (.tag badJSONDivFailingChild) []).exit ≠ .error ⟨lit "boom"⟩ :=
  ⟨rfl, rfl, fun _ => by simp [failingChild, MarshalHTML], by decide, by decide⟩

/-! ## Values of other types, and quotes -/

theorem appendEscapeAttr_no_quote (s : Bytes) : 39 ∉ appendEscapeAttr [] s := by
  rw [appendEscapeAttr_eq]
  simp only [List.nil_append, List.mem_flatMap, not_exists, not_and]
  intro c _ h
  by_cases hc : c = 39
  · rw [if_pos hc] at h
    revert h
    decide
  · rw [if_neg hc] at h
    simp only [List.mem_singleton] at h
    exact hc h.symm

theorem count_eq_zero_of_not_mem_quote (s : Bytes) (h : 39 ∉ s) : s.count 39 = 0 :=
  List.count_eq_zero_of_not_mem h

/-- C19: for a key `k` and a value that is not a boolean and whose coerced text `val` is
not empty, the bytes the attribute loop writes for the attribute are a space, the escaped
key, `='`, the escaped text and `'`; neither the escaped key nor the escaped text holds an
apostrophe, so these bytes hold exactly two apostrophes, the opening and the closing
quote. -/
theorem C19_no_quote_breakout (k : Bytes) (v : AttrValue) (c : Coerced)
    (hv : coerce v = .ok c) (hb : c.isBool = false) (hval : c.val ≠ []) :
    (writeAttrs [⟨k, v⟩] []).1
      = [32] ++ appendEscapeAttr [] k ++ [61, 39] ++ appendEscapeAttr [] c.val ++ [39] ∧
    39 ∉ appendEscapeAttr [] k ∧
    39 ∉ appendEscapeAttr [] c.val ∧
    ((writeAttrs [⟨k, v⟩] []).1).count 39 = 2 := by
  have hlen : ¬ c.val.length = 0 := by simpa [List.length_eq_zero] using hval
  have e : (writeAttrs [⟨k, v⟩] []).1
      = [32] ++ appendEscapeAttr [] k ++ [61, 39] ++ appendEscapeAttr [] c.val ++ [39] := by
    simp only [writeAttrs, hv, hb, hlen, false_and, if_false, Bool.false_eq_true]
    rw [appendEscapeAttr_buf ([] ++ [32]), appendEscapeAttr_buf (_ ++ [61, 39])]
    simp
  refine ⟨e, appendEscapeAttr_no_quote k, appendEscapeAttr_no_quote c.val, ?_⟩
  rw [e]
  simp only [List.count_append,
    count_eq_zero_of_not_mem_quote _ (appendEscapeAttr_no_quote k),
    count_eq_zero_of_not_mem_quote _ (appendEscapeAttr_no_quote c.val)]
  decide

/-- Witness of C19: a key and a value that both hold an apostrophe. -/
theorem C19_no_quote_breakout_witness :
    (writeAttrs [⟨lit "a'b", .str (lit "x' onclick='y")⟩] []).1
      = lit " a&#39;b='x&#39; onclick=&#39;y'" ∧
    ((writeAttrs [⟨lit "a'b", .str (lit "x' onclick='y")⟩] []).1).count 39 = 2 :=
  have h := C19_no_quote_breakout (lit "a'b") (.str (lit "x' onclick='y"))
    ⟨lit "x' onclick='y", false, false⟩ rfl rfl (by decide)
  ⟨h.1.trans (by decide), h.2.2.2⟩

/-! ## Attr -/

theorem getElem?_pad (vs : List AttrValue) (x : AttrValue) (i : Nat)
    (hodd : vs.length % 2 = 1) (hi : i % 2 = 0) : (vs ++ [x])[i]? = vs[i]? := by
  by_cases h : i < vs.length
  · exact List.getElem?_append_left h
  · have hne : i ≠ vs.length := by omega
    have hgt : vs.length < i := by omega
    rw [List.getElem?_eq_none (by simp; omega), List.getElem?_eq_none (by omega)]

theorem attrLoop_even {χ : Type} :
    ∀ (l : List AttrValue) (b : HTMLTagBuilder χ), l.length % 2 = 0 →
      ((attrLoop b l).2 = none ∧ ∀ i v, i % 2 = 0 → l[i]? = some v → v.isStr = true) ∨
      (∃ i v, i % 2 = 0 ∧ l[i]? = some v ∧ v.isStr = false ∧
        (attrLoop b l).2 = some (.attrKey v))
  | [], b, _ => Or.inl ⟨rfl, by simp⟩
  | [x], b, h => by simp at h
  | k :: v :: rest, b, h => by
    have hrest : rest.length % 2 = 0 := by simp at h; omega
    cases k with
    | str key =>
      rcases attrLoop_even rest (b.SetAttr key v) hrest with ⟨h1, h2⟩ | ⟨i, w, hi, hw, hs, hp⟩
      · left
        refine ⟨by simpa [attrLoop] using h1, ?_⟩
        intro i w hi hw
        match i, hi, hw with
        | 0, _, hw => simp at hw; subst hw; rfl
        | 1, hi, _ => simp at hi
        | i + 2, hi, hw =>
          simp only [List.getElem?_cons_succ] at hw
          exact h2 i w (by omega) hw
      · right
        exact ⟨i + 2, w, by omega, by simpa using hw, hs, by simpa [attrLoop] using hp⟩
    | _ =>
      right
      exact ⟨0, _, rfl, rfl, rfl, rfl⟩

theorem attrLoop_fields {χ : Type} :
    ∀ (l : List AttrValue) (b : HTMLTagBuilder χ),
      (attrLoop b l).1.tag = b.tag ∧ (attrLoop b l).1.omitEndTag = b.omitEndTag ∧
      (attrLoop b l).1.styles = b.styles ∧ (attrLoop b l).1.classNames = b.classNames ∧
      (attrLoop b l).1.children = b.children
  | [], _ => ⟨rfl, rfl, rfl, rfl, rfl⟩
  | [_], _ => ⟨rfl, rfl, rfl, rfl, rfl⟩
  | k :: v :: rest, b => by
    cases k with
    | str key =>
      have ih := attrLoop_fields rest (b.SetAttr key v)
      simpa [attrLoop, HTMLTagBuilder.SetAttr] using ih
    | _ => exact ⟨rfl, rfl, rfl, rfl, rfl⟩

theorem attrLoop_append {χ : Type} :
    ∀ (l1 l2 : List AttrValue) (b : HTMLTagBuilder χ), l1.length % 2 = 0 →
      (attrLoop b l1).2 = none → attrLoop b (l1 ++ l2) = attrLoop (attrLoop b l1).1 l2
  | [], _, _, _, _ => rfl
  | [_], _, _, h, _ => by simp at h
  | k :: v :: rest, l2, b, h, hn => by
    have hrest : rest.length % 2 = 0 := by simp at h; omega
    cases k with
    | str key =>
      have hn2 : (attrLoop (b.SetAttr key v) rest).2 = none := by simpa [attrLoop] using hn
      have ih := attrLoop_append rest l2 (b.SetAttr key v) hrest hn2
      simpa [attrLoop] using ih
    | _ => simp [attrLoop] at hn

theorem Attr_pad {χ : Type} (b : HTMLTagBuilder χ) (vs : List AttrValue) :
    b.Attr vs = attrLoop b (if vs.length % 2 = 1 then vs ++ [.str []] else vs) ∧
    (if vs.length % 2 = 1 then vs ++ [AttrValue.str []] else vs).length % 2 = 0 := by
  by_cases h : vs.length % 2 = 1
  · have h0 : vs.length % 2 ≠ 0 := by omega
    refine ⟨by simp [HTMLTagBuilder.Attr, h, h0], ?_⟩
    rw [if_pos h]; simp; omega
  · have h0 : vs.length % 2 = 0 := by omega
    refine ⟨by simp [HTMLTagBuilder.Attr, h, h0], ?_⟩
    rw [if_neg h]; exact h0

theorem Attr_spec {χ : Type} (b : HTMLTagBuilder χ) (vs : List AttrValue) :
    ((b.Attr vs).2 = none ∧ ∀ i v, i % 2 = 0 → vs[i]? = some v → v.isStr = true) ∨
    (∃ i v, i % 2 = 0 ∧ vs[i]? = some v ∧ v.isStr = false ∧
      (b.Attr vs).2 = some (.attrKey v)) := by
  obtain ⟨e, heven⟩ := Attr_pad b vs
  rw [e]
  by_cases h : vs.length % 2 = 1
  · rw [if_pos h] at heven ⊢
    rcases attrLoop_even _ b heven with ⟨h1, h2⟩ | ⟨i, w, hi, hw, hs, hp⟩
    · left
      exact ⟨h1, fun i v hi hv => h2 i v hi (by rw [getElem?_pad vs _ i h hi]; exact hv)⟩
    · right
      exact ⟨i, w, hi, by rw [← getElem?_pad vs (.str []) i h hi]; exact hw, hs, hp⟩
  · rw [if_neg h] at heven ⊢
    exact attrLoop_even _ b heven

theorem lookupAttr_setAttrList_self (k : Bytes) (v : AttrValue) (l : List tagAttr) :
    lookupAttr k (setAttrList k v l) = some v := by
  induction l with
  | nil => simp [lookupAttr, setAttrList]
  | cons a rest ih =>
    by_cases h : a.key = k
    · simp [lookupAttr, setAttrList, h]
    · simp only [setAttrList, h, if_false]
      simpa [lookupAttr, h] using ih

theorem lookupAttr_setAttrList_other (k k2 : Bytes) (v : AttrValue) (l : List tagAttr)
    (hk : k ≠ k2) : lookupAttr k (setAttrList k2 v l) = lookupAttr k l := by
  induction l with
  | nil => simp [lookupAttr, setAttrList, hk.symm]
  | cons a rest ih =>
    by_cases h2 : a.key = k2
    · have h1 : ¬ a.key = k := fun e => hk (e.symm.trans h2)
      simp [lookupAttr, setAttrList, h2, hk.symm, h1]
    · simp only [setAttrList, h2, if_false]
      by_cases h1 : a.key = k
      · simp [lookupAttr, h1]
      · simpa [lookupAttr, h1] using ih

theorem isStr_iff (v : AttrValue) : v.isStr = true ↔ ∃ k, v = .str k := by
  cases v <;> simp [AttrValue.isStr]

theorem Attr_fields {χ : Type} (b : HTMLTagBuilder χ) (vs : List AttrValue) :
    (b.Attr vs).1.tag = b.tag ∧ (b.Attr vs).1.omitEndTag = b.omitEndTag ∧
    (b.Attr vs).1.styles = b.styles ∧ (b.Attr vs).1.classNames = b.classNames ∧
    (b.Attr vs).1.children = b.children := by
  rw [(Attr_pad b vs).1]
  exact attrLoop_fields _ b

/-- C18: `Attr(vs)` panics if and only if some argument at an even position of `vs` is not
a string; the panic value is the one built from such an argument.  When every argument at
an even position is a string, `Attr` returns without panic whatever the values are, and in
every case the builder it leaves differs from the receiver in the attribute list only. -/
theorem C18_attr_panics_iff {χ : Type} (b : HTMLTagBuilder χ) (vs : List AttrValue) :
    ((b.Attr vs).2 ≠ none ↔ ∃ i v, i % 2 = 0 ∧ vs[i]? = some v ∧ v.isStr = false) ∧
    (∀ p, (b.Attr vs).2 = some p →
      ∃ i v, i % 2 = 0 ∧ vs[i]? = some v ∧ v.isStr = false ∧ p = .attrKey v) ∧
    ((∀ i v, i % 2 = 0 → vs[i]? = some v → v.isStr = true) → (b.Attr vs).2 = none) ∧
    ((b.Attr vs).1.tag = b.tag ∧ (b.Attr vs).1.omitEndTag = b.omitEndTag ∧
      (b.Attr vs).1.styles = b.styles ∧ (b.Attr vs).1.classNames = b.classNames ∧
      (b.Attr vs).1.children = b.children) ∧
    ((Tag (lit "p") : HTMLTagBuilder χ).Attr [.str (lit "x"), .int 5, .int 3, .int 4]).2
      = some (.attrKey (.int 3)) ∧
    ((Tag (lit "p") : HTMLTagBuilder χ).Attr
        [.str (lit "a"), .int 5, .str (lit "b"), .bool true, .str (lit "c"),
          .other (.fail ⟨lit "failure"⟩), .str (lit "d")]).2 = none := by
  refine ⟨?_, ?_, ?_, Attr_fields b vs, rfl, rfl⟩
  · rcases Attr_spec b vs with ⟨h1, h2⟩ | ⟨i, w, hi, hw, hs, hp⟩
    · constructor
      · intro h; exact absurd h1 h
      · rintro ⟨i, v, hi, hv, hs⟩
        rw [h2 i v hi hv] at hs
        exact absurd hs (by simp)
    · constructor
      · intro _; exact ⟨i, w, hi, hw, hs⟩
      · intro _; rw [hp]; simp
  · intro p hp
    rcases Attr_spec b vs with ⟨h1, _⟩ | ⟨i, w, hi, hw, hs, hq⟩
    · rw [h1] at hp; exact absurd hp (by simp)
    · rw [hq] at hp
      exact ⟨i, w, hi, hw, hs, (Option.some.inj hp).symm⟩
  · intro hkeys
    rcases Attr_spec b vs with ⟨h1, _⟩ | ⟨i, w, hi, hw, hs, _⟩
    · exact h1
    · rw [hkeys i w hi hw] at hs
      exact absurd hs (by simp)

/-- Witness of C18: a call whose keys are all strings returns, with values of any type. -/
theorem C18_attr_panics_iff_witness :
    ((Tag (lit "p") : HTMLTagBuilder HTMLComponent).Attr
        [.str (lit "a"), .int 5, .str (lit "b"), .other (.fail ⟨lit "failure"⟩)]).2 = none ∧
    ((Tag (lit "p") : HTMLTagBuilder HTMLComponent).Attr [.int 1, .str (lit "a")]).2
      ≠ none :=
  ⟨(C18_attr_panics_iff (Tag (lit "p") : HTMLTagBuilder HTMLComponent)
      [.str (lit "a"), .int 5, .str (lit "b"), .other (.fail ⟨lit "failure"⟩)]).2.2.1
      (by
        intro i v hi hv
        match i, hi, hv with
        | 0, _, hv => simp at hv; subst hv; rfl
        | 1, hi, _ => simp at hi
        | 2, _, hv => simp at hv; subst hv; rfl
        | 3, hi, _ => simp at hi
        | i + 4, _, hv => simp at hv),
   (C18_attr_panics_iff (Tag (lit "p") : HTMLTagBuilder HTMLComponent)
      [.int 1, .str (lit "a")]).1.mpr ⟨0, .int 1, rfl, rfl, rfl⟩⟩

/-- C16: for an argument list `vs` of odd length whose arguments at even positions are all
strings, `Attr(vs)` does not panic and leaves the builder `Attr(vs ++ [""])` leaves.  The
last argument is a key `k`; the call is `Attr` of the arguments before it followed by
`SetAttr(k, "")`, so the value stored for `k` is the empty string, for which the attribute
loop writes nothing.  The test "case 2" of tag_test.go, with its trailing `"style"`,
renders no style attribute. -/
theorem C16_odd_attr_padded {χ : Type} (b : HTMLTagBuilder χ) (vs : List AttrValue)
    (hodd : vs.length % 2 = 1)
    (hkeys : ∀ i v, i % 2 = 0 → vs[i]? = some v → v.isStr = true) :
    (b.Attr vs).2 = none ∧
    b.Attr vs = b.Attr (vs ++ [.str []]) ∧
    (∃ init k, vs = init ++ [.str k] ∧
      (b.Attr vs).1 = ((b.Attr init).1).SetAttr k (.str []) ∧
      lookupAttr k (b.Attr vs).1.attrs = some (.str [])) ∧
    (∀ (k buf : Bytes), writeAttrs [⟨k, .str []⟩] buf = (buf, none)) ∧
    (MarshalHTML (divOf case2Inner) []).buf
      = lit "\n<div>\n<div class='menu' id='menu-id'>Hello</div>\n</div>\n" := by
  have hpad : b.Attr vs = b.Attr (vs ++ [.str []]) := by
    have e1 := (Attr_pad b vs).1
    have e2 := (Attr_pad b (vs ++ [.str []])).1
    have h1 : ¬ (vs ++ [AttrValue.str []]).length % 2 = 1 := by simp; omega
    rw [if_pos hodd] at e1
    rw [if_neg h1] at e2
    rw [e1, e2]
  have hnone : (b.Attr vs).2 = none := by
    rcases Attr_spec b vs with ⟨h1, _⟩ | ⟨i, w, hi, hw, hs, _⟩
    · exact h1
    · rw [hkeys i w hi hw] at hs
      exact absurd hs (by simp)
  refine ⟨hnone, hpad, ?_, ?_, by decide⟩
  · rcases List.eq_nil_or_concat vs with hnil | ⟨init, last, hvs⟩
    · subst hnil; simp at hodd
    · rw [List.concat_eq_append] at hvs
      subst hvs
      have hinit : init.length % 2 = 0 := by simp at hodd; omega
      have hlast : last.isStr = true :=
        hkeys init.length last hinit (by simp)
      obtain ⟨k, hk⟩ := (isStr_iff last).mp hlast
      subst hk
      have hinitkeys : ∀ i v, i % 2 = 0 → init[i]? = some v → v.isStr = true := by
        intro i v hi hv
        have hlt : i < init.length := by
          by_contra hge
          rw [List.getElem?_eq_none (by omega)] at hv
          simp at hv
        exact hkeys i v hi (by rw [List.getElem?_append_left hlt]; exact hv)
      have e1 : b.Attr init = attrLoop b init := by
        have := (Attr_pad b init).1
        rwa [if_neg (by omega)] at this
      have hinitnone : (attrLoop b init).2 = none := by
        rcases attrLoop_even init b hinit with ⟨h1, _⟩ | ⟨i, w, hi, hw, hs, _⟩
        · exact h1
        · rw [hinitkeys i w hi hw] at hs
          exact absurd hs (by simp)
      have e2 : b.Attr (init ++ [.str k])
          = ((attrLoop b init).1.SetAttr k (.str []), none) := by
        have := (Attr_pad b (init ++ [.str k])).1
        rw [if_pos hodd, List.append_assoc, attrLoop_append init _ b hinit hinitnone] at this
        rw [this]
        simp [attrLoop]
      refine ⟨init, k, rfl, ?_, ?_⟩
      · rw [e2, e1]
      · rw [e2]
        exact lookupAttr_setAttrList_self k (.str []) _
  · intro k buf
    simp [writeAttrs, coerce]

/-- Witness of C16: `Attr("class", "menu", "id", "the-menu", "style")` on a `div`. -/
theorem C16_odd_attr_padded_witness :
    ((Tag (lit "div") : HTMLTagBuilder HTMLComponent).Attr
        [.str (lit "class"), .str (lit "menu"), .str (lit "id"), .str (lit "the-menu"),
          .str (lit "style")]).2 = none ∧
    (Tag (lit "div") : HTMLTagBuilder HTMLComponent).Attr
        [.str (lit "class"), .str (lit "menu"), .str (lit "id"), .str (lit "the-menu"),
          .str (lit "style")]
      = (Tag (lit "div") : HTMLTagBuilder HTMLComponent).Attr
        ([.str (lit "class"), .str (lit "menu"), .str (lit "id"), .str (lit "the-menu"),
          .str (lit "style")] ++ [.str []]) :=
  have h := C16_odd_attr_padded (Tag (lit "div") : HTMLTagBuilder HTMLComponent)
    [.str (lit "class"), .str (lit "menu"), .str (lit "id"), .str (lit "the-menu"),
      .str (lit "style")] rfl
    (by
      intro i v hi hv
      match i, hi, hv with
      | 0, _, hv => simp at hv; subst hv; rfl
      | 1, hi, _ => simp at hi
      | 2, _, hv => simp at hv; subst hv; rfl
      | 3, hi, _ => simp at hi
      | 4, _, hv => simp at hv; subst hv; rfl
      | i + 5, _, hv => simp at hv)
  ⟨h.1, h.2.1⟩

/-! ## Rendering only appends -/

/-- C20: for a tree built from elements, raw-text nodes and node lists (no
`ComponentFunc`) and every initial buffer `p`, the buffer after `MarshalHTML` is `p`
followed by the bytes the render appends to the empty buffer, whether the call returns nil
or fails; the way the call ends and the tree it leaves do not depend on `p` either, and
the bytes appended after `p` are those appended after any other buffer `q`. -/
theorem C20_render_only_appends (c : HTMLComponent) (h : noFunc c = true) (p : Bytes) :
    (MarshalHTML c p).buf = p ++ (MarshalHTML c []).buf ∧
    (MarshalHTML c p).exit = (MarshalHTML c []).exit ∧
    (MarshalHTML c p).node = (MarshalHTML c []).node ∧
    (∀ q : Bytes,
      (MarshalHTML c q).buf.drop q.length = (MarshalHTML c p).buf.drop p.length) := by
  have hF := (MarshalHTML_regular c h).1
  refine ⟨by rw [hF p], by rw [hF p], by rw [hF p], fun q => ?_⟩
  rw [hF p, hF q]
  simp

/-- Witness of C20: a render that returns nil and a render that fails (the anchor whose
second attribute does not serialise), both into the buffer `<!-- x -->`. -/
theorem C20_render_only_appends_witness :
    (MarshalHTML styledList (lit "<!-- x -->")).buf
      = lit "<!-- x -->" ++ lit "\n<p class='menu' style='color:red;'>Hi</p>\n" ∧
    (MarshalHTML (.tag badJSONAnchor) (lit "<!-- x -->")).buf
      = lit "<!-- x -->" ++ lit "\n<a href='/link'" ∧
    (MarshalHTML (.tag badJSONAnchor) (lit "<!-- x -->")).exit
      = .panic (.error ⟨lit "failure"⟩) :=
  have h1 := C20_render_only_appends styledList (by decide) (lit "<!-- x -->")
  have h2 := C20_render_only_appends (.tag badJSONAnchor) (by decide) (lit "<!-- x -->")
  ⟨h1.1.trans (by decide), h2.1.trans (by decide), h2.2.1.trans (by decide)⟩

/-! ## Node lists are transparent -/

theorem noFuncEach_mem :
    ∀ hcs : List (Option HTMLComponent), noFuncEach hcs = true →
      ∀ c ∈ hcs.filterMap id, noFunc c = true
  | [], _ => by simp
  | none :: rest, h => by
    have ih := noFuncEach_mem rest (by simpa [noFuncEach] using h)
    simpa using ih
  | some c :: rest, h => by
    have hh : noFunc c = true ∧ noFuncEach rest = true := by simpa [noFuncEach] using h
    have ih := noFuncEach_mem rest hh.2
    intro d hd
    simp only [List.filterMap_cons, id_eq, List.mem_cons] at hd
    rcases hd with hd | hd
    · rw [hd]; exact hh.1
    · exact ih d hd

theorem foldl_outputs (l : List HTMLComponent) (buf : Bytes)
    (h : ∀ c ∈ l, Framed (MarshalHTML c)) :
    l.foldl (fun acc c => (MarshalHTML c acc).buf) buf
      = buf ++ l.flatMap (fun c => (MarshalHTML c []).buf) := by
  induction l generalizing buf with
  | nil => simp
  | cons c rest ih =>
    have hc := h c (List.mem_cons_self _ _)
    rw [List.foldl_cons, ih _ (fun d hd => h d (List.mem_cons_of_mem _ hd)), hc buf]
    simp

theorem marshalEach_all_nil (hcs : List (Option HTMLComponent)) (buf : Bytes)
    (h : ∀ x ∈ hcs, x = none) : marshalEach hcs buf = ⟨hcs, buf, .nil⟩ := by
  induction hcs with
  | nil => exact marshalEach_nil buf
  | cons x rest ih =>
    have hx := h x (List.mem_cons_self _ _)
    subst hx
    rw [marshalEach_cons_none, ih (fun y hy => h y (List.mem_cons_of_mem _ hy))]

theorem marshalEach_flatten (xs ys : List (Option HTMLComponent)) (buf : Bytes) :
    (marshalEach (some (.comps xs) :: ys) buf).buf = (marshalEach (xs ++ ys) buf).buf ∧
    (marshalEach (some (.comps xs) :: ys) buf).exit = (marshalEach (xs ++ ys) buf).exit := by
  rw [marshalEach_cons_some, MarshalHTML_comps, marshalEach_append]
  cases (marshalEach xs buf).exit <;> simp

theorem MarshalHTML_tag_children_congr (b : HTMLTagBuilder HTMLComponent)
    (l1 l2 : List (Option HTMLComponent)) (buf : Bytes)
    (h : ∀ s, (marshalEach l1 s).buf = (marshalEach l2 s).buf ∧
      (marshalEach l1 s).exit = (marshalEach l2 s).exit) :
    (MarshalHTML (.tag (b.Children l1)) buf).buf = (MarshalHTML (.tag (b.Children l2)) buf).buf ∧
    (MarshalHTML (.tag (b.Children l1)) buf).exit
      = (MarshalHTML (.tag (b.Children l2)) buf).exit := by
  rw [MarshalHTML_tag, MarshalHTML_tag, materializedAttrs_Children, materializedAttrs_Children]
  have ht1 : (b.Children l1).tag = b.tag := rfl
  have ht2 : (b.Children l2).tag = b.tag := rfl
  have ho1 : (b.Children l1).omitEndTag = b.omitEndTag := rfl
  have ho2 : (b.Children l2).omitEndTag = b.omitEndTag := rfl
  have hc1 : (b.Children l1).children = l1 := rfl
  have hc2 : (b.Children l2).children = l2 := rfl
  rw [ht1, ht2, ho1, ho2, hc1, hc2]
  cases hw : writeAttrs (materializedAttrs b) (buf ++ [10, 60] ++ b.tag) with
  | mk buf2 e =>
    cases e with
    | some p => exact ⟨rfl, rfl⟩
    | none =>
      simp only []
      by_cases ho : b.omitEndTag = true
      · rw [if_pos ho, if_pos ho]; exact ⟨rfl, rfl⟩
      · rw [if_neg ho, if_neg ho]
        obtain ⟨hb, he⟩ := h (buf2 ++ [62])
        rw [hb, he]
        cases (marshalEach l2 (buf2 ++ [62])).exit <;> exact ⟨rfl, rfl⟩

/-- C17, for members that return nil: when the loop over the members of a node list ends
with nil (every non-nil member returned nil), `HTMLComponents.MarshalHTML` returns nil and
the buffer it leaves is the one obtained by rendering the non-nil members in order, nothing
else being written; for members without `ComponentFunc` this is the buffer followed by
the concatenation of their outputs.  A list that is empty or holds only nil entries
appends nothing and returns nil.  In every case, failure included, an element with the
children `Components(xs...)` followed by `ys` leaves the same bytes and ends the same way
as the same element with the children `xs` followed by `ys`. -/
theorem C17_node_list_transparent (hcs : List (Option HTMLComponent)) (buf : Bytes) :
    ((marshalEach hcs buf).exit = .nil →
      (MarshalHTML (.comps hcs) buf).buf
        = (hcs.filterMap id).foldl (fun acc c => (MarshalHTML c acc).buf) buf ∧
      (MarshalHTML (.comps hcs) buf).exit = .nil) ∧
    (noFuncEach hcs = true → (marshalEach hcs buf).exit = .nil →
      (MarshalHTML (.comps hcs) buf).buf
        = buf ++ (hcs.filterMap id).flatMap (fun c => (MarshalHTML c []).buf)) ∧
    ((∀ x ∈ hcs, x = none) →
      (MarshalHTML (.comps hcs) buf).buf = buf ∧ (MarshalHTML (.comps hcs) buf).exit = .nil) ∧
    (∀ (b : HTMLTagBuilder HTMLComponent) (ys : List (Option HTMLComponent)),
      (MarshalHTML (.tag (b.Children (some (Components hcs) :: ys))) buf).buf
        = (MarshalHTML (.tag (b.Children (hcs ++ ys))) buf).buf ∧
      (MarshalHTML (.tag (b.Children (some (Components hcs) :: ys))) buf).exit
        = (MarshalHTML (.tag (b.Children (hcs ++ ys))) buf).exit) := by
  refine ⟨?_, ?_, ?_, ?_⟩
  · intro h
    rw [MarshalHTML_comps]
    exact ⟨marshalEach_buf_of_nil hcs buf h, h⟩
  · intro hnf h
    rw [MarshalHTML_comps]
    simp only []
    rw [marshalEach_buf_of_nil hcs buf h]
    exact foldl_outputs _ buf
      (fun c hc => (MarshalHTML_regular c (noFuncEach_mem hcs hnf c hc)).1)
  · intro h
    rw [MarshalHTML_comps, marshalEach_all_nil hcs buf h]
    exact ⟨rfl, rfl⟩
  · intro b ys
    exact MarshalHTML_tag_children_congr b _ _ buf (fun s => marshalEach_flatten hcs ys s)

/-- Witness of C17: the list `Components(Text("a"), nil, Text("b"))`, a list of nil
entries, and a `div` holding `Components(Text("a"), Text("b"))` and `Text("c")`. -/
theorem C17_node_list_transparent_witness :
    (MarshalHTML (.comps [some (Text (lit "a")), none, some (Text (lit "b"))]) (lit "x")).buf
      = lit "x" ++ lit "ab" ∧
    (MarshalHTML (.comps [none, none]) (lit "x")).buf = lit "x" ∧
    (MarshalHTML (.tag ((Tag (lit "div")).Children
        [some (Components [some (Text (lit "a")), some (Text (lit "b"))]),
          some (Text (lit "c"))])) []).buf
      = lit "\n<div>abc</div>\n" :=
  have h1 := (C17_node_list_transparent [some (Text (lit "a")), none, some (Text (lit "b"))]
    (lit "x")).2.1 (by decide) (by decide)
  have h2 := ((C17_node_list_transparent [none, none] (lit "x")).2.2.1
    (by intro x hx; simpa using hx)).1
  have h3 := ((C17_node_list_transparent [some (Text (lit "a")), some (Text (lit "b"))]
    []).2.2.2 (Tag (lit "div")) [some (Text (lit "c"))]).1
  ⟨h1.trans (by decide), h2, h3.trans (by decide)⟩

/-- C17 as stated fails: the list `Components(f, Text("x"))`, `f` returning the error
`boom` after writing `oops`, does not append the outputs of its two members (`oops`, `x`):
it appends `oops` only and returns the error. -/
theorem C17_counterexample :
    (MarshalHTML failingChild []).buf = lit "oops" ∧
    (MarshalHTML (Text (lit "x")) []).buf = lit "x" ∧
    (MarshalHTML failingList []).buf = lit "oops" ∧
    (MarshalHTML failingList []).buf ≠ lit "oops" ++ lit "x" ∧
    (MarshalHTML failingList []).exit = .error ⟨lit "boom"⟩ := by
  decide

/-! ## Elements built with the methods of the builder -/

theorem mem_keys_setAttrList (k x : Bytes) (v : AttrValue) (l : List tagAttr)
    (h : x ∈ (setAttrList k v l).map tagAttr.key) : x ∈ l.map tagAttr.key ∨ x = k := by
  induction l with
  | nil => right; simpa [setAttrList] using h
  | cons a rest ih =>
    by_cases ha : a.key = k
    · left; simpa [setAttrList, ha] using h
    · simp only [setAttrList, ha, if_false, List.map_cons, List.mem_cons] at h
      rcases h with h | h
      · left; simp [h]
      · rcases ih h with h' | h'
        · left; simp [h']
        · right; exact h'

theorem setAttrList_nodup (k : Bytes) (v : AttrValue) (l : List tagAttr)
    (h : (l.map tagAttr.key).Nodup) : ((setAttrList k v l).map tagAttr.key).Nodup := by
  induction l with
  | nil => simp [setAttrList]
  | cons a rest ih =>
    rw [List.map_cons, List.nodup_cons] at h
    by_cases ha : a.key = k
    · simp only [setAttrList, ha, if_true, List.map_cons, List.nodup_cons]
      rw [← ha]; exact h
    · simp only [setAttrList, ha, if_false, List.map_cons, List.nodup_cons]
      refine ⟨fun hmem => ?_, ih h.2⟩
      rcases mem_keys_setAttrList k a.key v rest hmem with h' | h'
      · exact h.1 h'
      · exact ha h'

theorem attrLoop_nodup {χ : Type} :
    ∀ (l : List AttrValue) (b : HTMLTagBuilder χ), (b.attrs.map tagAttr.key).Nodup →
      ((attrLoop b l).1.attrs.map tagAttr.key).Nodup
  | [], _, h => h
  | [_], _, h => h
  | k :: v :: rest, b, h => by
    cases k with
    | str key =>
      have ih := attrLoop_nodup rest (b.SetAttr key v) (setAttrList_nodup key v b.attrs h)
      simpa [attrLoop] using ih
    | _ => exact h

theorem Attr_nodup {χ : Type} (b : HTMLTagBuilder χ) (vs : List AttrValue)
    (h : (b.attrs.map tagAttr.key).Nodup) : ((b.Attr vs).1.attrs.map tagAttr.key).Nodup := by
  rw [(Attr_pad b vs).1]
  exact attrLoop_nodup _ b h

theorem materializedAttrs_nodup {χ : Type} (b : HTMLTagBuilder χ)
    (h : (b.attrs.map tagAttr.key).Nodup) : ((materializedAttrs b).map tagAttr.key).Nodup := by
  rw [materializedAttrs_eq]
  split_ifs
  · exact setAttrList_nodup _ _ _ (setAttrList_nodup _ _ _ h)
  · exact setAttrList_nodup _ _ _ h
  · exact setAttrList_nodup _ _ _ h
  · exact h

theorem MarshalHTML_tag_node (b : HTMLTagBuilder HTMLComponent) (buf : Bytes) :
    ∃ ch, (MarshalHTML (.tag b) buf).node
      = .tag { b with attrs := materializedAttrs b, children := ch } := by
  rw [MarshalHTML_tag]
  cases hw : writeAttrs (materializedAttrs b) (buf ++ [10, 60] ++ b.tag) with
  | mk buf2 e =>
    cases e with
    | some p => exact ⟨b.children, rfl⟩
    | none =>
      simp only []
      by_cases ho : b.omitEndTag = true
      · rw [if_pos ho]; exact ⟨b.children, rfl⟩
      · rw [if_neg ho]
        cases (marshalEach b.children (buf2 ++ [62])).exit <;> exact ⟨_, rfl⟩

theorem dropWhile_head_ne (c : Nat) (s : Bytes) :
    (s.dropWhile (fun b => decide (b = c))).head? ≠ some c := by
  induction s with
  | nil => simp
  | cons a rest ih =>
    by_cases h : a = c
    · simpa [List.dropWhile_cons, h] using ih
    · simp [List.dropWhile_cons, h]

theorem Trim_ends (v : Bytes) (c : Nat) :
    (Trim v c).head? ≠ some c ∧ (Trim v c).getLast? ≠ some c := by
  unfold Trim
  constructor
  · rw [List.head?_reverse]
    intro hlast
    have hsplit := List.takeWhile_append_dropWhile (fun b => decide (b = c))
      (v.dropWhile (fun b => decide (b = c))).reverse
    have h2 : ((v.dropWhile (fun b => decide (b = c))).reverse).getLast? = some c := by
      rw [← hsplit, List.getLast?_append, hlast]; rfl
    rw [List.getLast?_reverse] at h2
    exact dropWhile_head_ne c v h2
  · rw [List.getLast?_reverse]
    exact dropWhile_head_ne c _

theorem WellFormed_Tag {χ : Type} (t : Bytes) : WellFormed (Tag t : HTMLTagBuilder χ) := by
  refine ⟨?_, ?_, ?_⟩ <;> simp [Tag]

theorem WellFormed_of_attrs {χ : Type} (b b2 : HTMLTagBuilder χ) (h : WellFormed b)
    (hk : (b2.attrs.map tagAttr.key).Nodup) (hc : b2.classNames = b.classNames)
    (hs : b2.styles = b.styles) : WellFormed b2 := by
  refine ⟨hk, ?_, ?_⟩
  · rw [hc]; exact h.2.1
  · rw [hs]; exact h.2.2

theorem WellFormed_Attr {χ : Type} (b : HTMLTagBuilder χ) (vs : List AttrValue)
    (h : WellFormed b) : WellFormed (b.Attr vs).1 :=
  WellFormed_of_attrs b _ h (Attr_nodup b vs h.1) (Attr_fields b vs).2.2.2.1
    (Attr_fields b vs).2.2.1

theorem WellFormed_Class {χ : Type} (b : HTMLTagBuilder χ) (names : List Bytes)
    (h : WellFormed b) : WellFormed (b.Class names) := by
  refine ⟨h.1, ?_, h.2.2⟩
  rw [Class_classNames]
  intro t ht
  rcases List.mem_append.mp ht with ht | ht
  · exact h.2.1 t ht
  · exact flatMap_classTokens_clean names t ht

theorem WellFormed_Style {χ : Type} (b : HTMLTagBuilder χ) (v : Bytes)
    (h : WellFormed b) : WellFormed (b.Style v) := by
  unfold HTMLTagBuilder.Style HTMLTagBuilder.addStyle
  split_ifs with hlen
  · refine ⟨h.1, h.2.1, ?_⟩
    intro s hs
    simp only [List.mem_append, List.mem_singleton] at hs
    rcases hs with hs | hs
    · exact h.2.2 s hs
    · subst hs
      refine ⟨?_, (Trim_ends v 59).1, (Trim_ends v 59).2⟩
      intro e
      rw [e] at hlen
      simp at hlen
  · exact h

theorem WellFormed_applyCall (b : HTMLTagBuilder HTMLComponent) (call : BuilderCall)
    (h : WellFormed b) : WellFormed (applyCall b call) := by
  cases call with
  | SetAttr k v => exact ⟨setAttrList_nodup k v b.attrs h.1, h.2.1, h.2.2⟩
  | Attr vs => exact WellFormed_Attr b vs h
  | AttrIf key value add =>
    cases add with
    | false => exact h
    | true => exact WellFormed_Attr b [key, value] h
  | Class names => exact WellFormed_Class b names h
  | ClassIf name add =>
    cases add with
    | false => exact h
    | true => exact WellFormed_Class b [name] h
  | Style v => exact WellFormed_Style b v h
  | StyleIf v add =>
    cases add with
    | false => exact h
    | true => exact WellFormed_Style b v h
  | Children comps => exact h
  | OmitEndTag => exact h
  | MarshalHTML buf =>
    obtain ⟨ch, hch⟩ := MarshalHTML_tag_node b buf
    simp only [applyCall, hch]
    exact ⟨materializedAttrs_nodup b h.1, h.2.1, h.2.2⟩

theorem WellFormed_applyCalls (calls : List BuilderCall) :
    ∀ b : HTMLTagBuilder HTMLComponent, WellFormed b → WellFormed (applyCalls b calls) := by
  induction calls with
  | nil => intro b h; exact h
  | cons call rest ih =>
    intro b h
    exact ih (applyCall b call) (WellFormed_applyCall b call h)

theorem countP_key_le_one (k : Bytes) (l : List tagAttr)
    (h : (l.map tagAttr.key).Nodup) : l.countP (fun a => decide (a.key = k)) ≤ 1 := by
  induction l with
  | nil => simp
  | cons a rest ih =>
    rw [List.map_cons, List.nodup_cons] at h
    by_cases ha : a.key = k
    · have hz : rest.countP (fun a => decide (a.key = k)) = 0 := by
        rw [List.countP_eq_zero]
        intro x hx hxk
        have hxk' : x.key = k := by simpa using hxk
        exact h.1 (by rw [ha, ← hxk']; exact List.mem_map_of_mem _ hx)
      rw [List.countP_cons_of_pos _ _ (by simpa using ha), hz]
    · rw [List.countP_cons_of_neg _ _ (by simpa using ha)]
      exact ih h.2

/-- C15: starting from `Tag(t)`, after any sequence of calls of `SetAttr`, `Attr`, `AttrIf`,
`Class`, `ClassIf`, `Style`, `StyleIf`, `Children`, `OmitEndTag` and `MarshalHTML`, no two
entries of the attribute list have the same key, and the same holds of the list the
attribute loop of a further `MarshalHTML` walks: it has at most one entry with the key
`class` and at most one with the key `style`.  After `Attr("class", "x")`, `Class("a")`, a
render, `Class("b")` and a second render the list holds the single key `class`, and a third
render writes one class attribute. -/
theorem C15_attr_keys_unique (t : Bytes) (calls : List BuilderCall) :
    ((applyCalls (Tag t) calls).attrs.map tagAttr.key).Nodup ∧
    ((materializedAttrs (applyCalls (Tag t) calls)).map tagAttr.key).Nodup ∧
    (materializedAttrs (applyCalls (Tag t) calls)).countP
        (fun a => decide (a.key = lit "class")) ≤ 1 ∧
    (materializedAttrs (applyCalls (Tag t) calls)).countP
        (fun a => decide (a.key = lit "style")) ≤ 1 ∧
    (applyCalls (Tag (lit "p")) classTwiceCalls).attrs.map tagAttr.key = [lit "class"] ∧
    (MarshalHTML (.tag (applyCalls (Tag (lit "p")) classTwiceCalls)) []).buf
      = lit "\n<p class='a b'></p>\n" := by
  have hw := WellFormed_applyCalls calls (Tag t) (WellFormed_Tag t)
  have hm := materializedAttrs_nodup _ hw.1
  refine ⟨hw.1, hm, ?_, ?_, ?_, ?_⟩
  · exact countP_key_le_one (lit "class") _ hm
  · exact countP_key_le_one (lit "style") _ hm
  · decide
  · decide

theorem materializedAttrs_class {χ : Type} (b : HTMLTagBuilder χ)
    (h : (TrimSpace (Join b.classNames (lit " "))).length > 0) :
    lookupAttr (lit "class") (materializedAttrs b)
      = some (.str (TrimSpace (Join b.classNames (lit " ")))) := by
  have hne : lit "class" ≠ lit "style" := by decide
  rw [materializedAttrs_eq]
  simp only [h, if_true]
  split_ifs
  · rw [lookupAttr_setAttrList_other _ _ _ _ hne, lookupAttr_setAttrList_self]
  · rw [lookupAttr_setAttrList_self]

theorem materializedAttrs_no_class {χ : Type} (b : HTMLTagBuilder χ)
    (h : ¬ (TrimSpace (Join b.classNames (lit " "))).length > 0) :
    lookupAttr (lit "class") (materializedAttrs b) = lookupAttr (lit "class") b.attrs := by
  have hne : lit "class" ≠ lit "style" := by decide
  rw [materializedAttrs_eq]
  simp only [h, if_false]
  split_ifs
  · rw [lookupAttr_setAttrList_other _ _ _ _ hne]
  · rfl

theorem materializedAttrs_style {χ : Type} (b : HTMLTagBuilder χ)
    (h : (TrimSpace (Join b.styles (lit "; "))).length > 0) :
    lookupAttr (lit "style") (materializedAttrs b)
      = some (.str (TrimSpace (Join b.styles (lit "; ")) ++ lit ";")) := by
  rw [materializedAttrs_eq]
  simp only [h, if_true]
  rw [lookupAttr_setAttrList_self]

theorem materializedAttrs_no_style {χ : Type} (b : HTMLTagBuilder χ)
    (h : ¬ (TrimSpace (Join b.styles (lit "; "))).length > 0) :
    lookupAttr (lit "style") (materializedAttrs b) = lookupAttr (lit "style") b.attrs := by
  have hne : lit "style" ≠ lit "class" := by decide
  rw [materializedAttrs_eq]
  simp only [h, if_false]
  split_ifs
  · rw [lookupAttr_setAttrList_other _ _ _ _ hne]
  · rfl

/-- C14, as the code behaves: let `b` be built from `Tag(t)` by calls of the builder.  When
`Class` has stored a token, the value of `class` in the attribute list `MarshalHTML`
renders is the class names joined by single spaces, whatever was set for `class` before;
when the styles joined with `; ` and trimmed of white space are not empty, the value of
`style` is that text followed by `;`, whatever was set for `style` before.  When no class
name is stored, or the trimmed join of the styles is empty, the value set explicitly (if
any) is the one rendered. -/
theorem C14_accumulation_wins (t : Bytes) (calls : List BuilderCall)
    (b : HTMLTagBuilder HTMLComponent) (hb : b = applyCalls (Tag t) calls) :
    (b.classNames ≠ [] →
      lookupAttr (lit "class") (materializedAttrs b)
        = some (.str (Join b.classNames (lit " ")))) ∧
    (TrimSpace (Join b.styles (lit "; ")) ≠ [] →
      lookupAttr (lit "style") (materializedAttrs b)
        = some (.str (TrimSpace (Join b.styles (lit "; ")) ++ lit ";"))) ∧
    (b.classNames = [] →
      lookupAttr (lit "class") (materializedAttrs b) = lookupAttr (lit "class") b.attrs) ∧
    (TrimSpace (Join b.styles (lit "; ")) = [] →
      lookupAttr (lit "style") (materializedAttrs b) = lookupAttr (lit "style") b.attrs) ∧
    (MarshalHTML (.tag (applyCalls (Tag (lit "p")) bothSetCalls)) []).buf
      = lit "\n<p class='a' style='k:v;'></p>\n" := by
  have hw : WellFormed b := by
    rw [hb]; exact WellFormed_applyCalls calls (Tag t) (WellFormed_Tag t)
  have hsp : lit " " = [32] := by decide
  refine ⟨?_, ?_, ?_, ?_, by decide⟩
  · intro hne
    have hval : TrimSpace (Join b.classNames (lit " ")) = Join b.classNames (lit " ") := by
      rw [hsp]; exact classValue_eq _ hw.2.1
    have hlen : (TrimSpace (Join b.classNames (lit " "))).length > 0 := by
      rw [hval]
      exact List.length_pos.mpr (Join_ne_nil _ _ hne (fun t ht => (hw.2.1 t ht).1))
    rw [materializedAttrs_class b hlen, hval]
  · intro hne
    exact materializedAttrs_style b (List.length_pos.mpr hne)
  · intro hnil
    apply materializedAttrs_no_class
    rw [hnil]
    decide
  · intro hnil
    apply materializedAttrs_no_style
    rw [hnil]
    decide

/-- Witness of C14: `Attr("class", "x", "style", "y")`, `Class("a")`, `Style("k:v")`. -/
theorem C14_accumulation_wins_witness :
    lookupAttr (lit "class") (applyCalls (Tag (lit "p")) bothSetCalls).attrs
      = some (.str (lit "x")) ∧
    lookupAttr (lit "class") (materializedAttrs (applyCalls (Tag (lit "p")) bothSetCalls))
      = some (.str (lit "a")) ∧
    lookupAttr (lit "style") (materializedAttrs (applyCalls (Tag (lit "p")) bothSetCalls))
      = some (.str (lit "k:v;")) :=
  have h := C14_accumulation_wins (lit "p") bothSetCalls _ rfl
  ⟨by decide, (h.1 (by decide)).trans (by decide), (h.2.1 (by decide)).trans (by decide)⟩

/-- C14 as stated fails for styles: after `Attr("style", "x")` and `Style(" ")` a style
fragment is stored, yet the style attribute is rendered with the explicit value `x`. -/
theorem C14_counterexample :
    (applyCalls (Tag (lit "p")) blankStyleCalls).styles = [lit " "] ∧
    lookupAttr (lit "style") (materializedAttrs (applyCalls (Tag (lit "p")) blankStyleCalls))
      = some (.str (lit "x")) ∧
    (MarshalHTML (.tag (applyCalls (Tag (lit "p")) blankStyleCalls)) []).buf
      = lit "\n<p style='x'></p>\n" := by
  decide

/-! ## Style -/

theorem Join_getLast (init : List Bytes) (last sep : Bytes) (h : last ≠ []) :
    (Join (init ++ [last]) sep).getLast? = last.getLast? := by
  obtain ⟨x, hx⟩ : ∃ x, last.getLast? = some x := by
    cases hl : last.getLast? with
    | none => exact absurd (List.getLast?_eq_none_iff.mp hl) h
    | some x => exact ⟨x, rfl⟩
  by_cases hi : init = []
  · subst hi; simp [Join]
  · rw [Join_concat _ _ _ hi, List.getLast?_append, hx]; rfl

/-- C13, as the code behaves: let `b` be built from `Tag(t)` by calls of the builder.  Every
stored style fragment is non-empty and neither starts nor ends with `;`: `Style(v)` stores
`v` trimmed of surrounding `;` when that is not empty, `StyleIf` does so when its flag is
set.  When the fragments joined with `; ` and trimmed of surrounding white space give a
non-empty text, the style value `MarshalHTML` renders is that text followed by `;`.  When
the joined text has no leading or trailing white space, the value is exactly the join
followed by `;`, and the join does not end with `;`: the value ends with one `;`. -/
theorem C13_style_joining (t : Bytes) (calls : List BuilderCall)
    (b : HTMLTagBuilder HTMLComponent) (hb : b = applyCalls (Tag t) calls) :
    (∀ s ∈ b.styles, s ≠ [] ∧ s.head? ≠ some 59 ∧ s.getLast? ≠ some 59) ∧
    (∀ v : Bytes,
      (b.Style v).styles
        = if (Trim v 59).length > 0 then b.styles ++ [Trim v 59] else b.styles) ∧
    (∀ (v : Bytes) (add : Bool),
      (b.StyleIf v add).styles = if add then (b.Style v).styles else b.styles) ∧
    (TrimSpace (Join b.styles (lit "; ")) ≠ [] →
      lookupAttr (lit "style") (materializedAttrs b)
        = some (.str (TrimSpace (Join b.styles (lit "; ")) ++ lit ";"))) ∧
    (b.styles ≠ [] → startsWithSpace (Join b.styles (lit "; ")) = false →
      endsWithSpace (Join b.styles (lit "; ")) = false →
      lookupAttr (lit "style") (materializedAttrs b)
          = some (.str (Join b.styles (lit "; ") ++ lit ";")) ∧
        (Join b.styles (lit "; ")).getLast? ≠ some 59) ∧
    (MarshalHTML (.tag (applyCalls (Tag (lit "p")) twoStyleCalls)) []).buf
      = lit "\n<p style='color:red; margin:0;'></p>\n" := by
  have hw : WellFormed b := by
    rw [hb]; exact WellFormed_applyCalls calls (Tag t) (WellFormed_Tag t)
  refine ⟨hw.2.2, ?_, ?_, ?_, ?_, by decide⟩
  · intro v
    unfold HTMLTagBuilder.Style HTMLTagBuilder.addStyle
    split_ifs <;> rfl
  · intro v add
    cases add <;> rfl
  · intro hne
    exact materializedAttrs_style b (List.length_pos.mpr hne)
  · intro hne h1 h2
    have hfix : TrimSpace (Join b.styles (lit "; ")) = Join b.styles (lit "; ") :=
      TrimSpace_fix _ h1 h2
    have hjoin : Join b.styles (lit "; ") ≠ [] :=
      Join_ne_nil _ _ hne (fun s hs => (hw.2.2 s hs).1)
    have hlen : (TrimSpace (Join b.styles (lit "; "))).length > 0 := by
      rw [hfix]; exact List.length_pos.mpr hjoin
    refine ⟨by rw [materializedAttrs_style b hlen, hfix], ?_⟩
    rcases List.eq_nil_or_concat b.styles with hnil | ⟨init, last, hst⟩
    · exact absurd hnil hne
    · rw [List.concat_eq_append] at hst
      have hlast := hw.2.2 last (by rw [hst]; simp)
      rw [hst, Join_getLast init last _ hlast.1]
      exact hlast.2.2

/-- Witness of C13: `Style("color:red;")`, `StyleIf("x:y", false)`, `Style(";margin:0;;")`
on a `p`. -/
theorem C13_style_joining_witness :
    (applyCalls (Tag (lit "p")) twoStyleCalls).styles = [lit "color:red", lit "margin:0"] ∧
    lookupAttr (lit "style") (materializedAttrs (applyCalls (Tag (lit "p")) twoStyleCalls))
      = some (.str (lit "color:red; margin:0" ++ lit ";")) ∧
    (lit "color:red; margin:0").getLast? ≠ some 59 :=
  have h := (C13_style_joining (lit "p") twoStyleCalls _ rfl).2.2.2.2.1
    (by decide) (by decide) (by decide)
  ⟨by decide, h.1.trans (by decide), by decide⟩

/-- C13 as stated fails: `Style("color:red; ")` stores the fragment `color:red; ` (the
space keeps `Trim` from removing the `;`); the value rendered is `color:red;;`, which is
not the fragment followed by `;` and ends with two `;`. -/
theorem C13_counterexample :
    (applyCalls (Tag (lit "p")) spacedStyleCalls).styles = [lit "color:red; "] ∧
    lookupAttr (lit "style") (materializedAttrs (applyCalls (Tag (lit "p")) spacedStyleCalls))
      = some (.str (lit "color:red;;")) ∧
    lit "color:red;;" ≠ Join [lit "color:red; "] (lit "; ") ++ lit ";" ∧
    (MarshalHTML (.tag (applyCalls (Tag (lit "p")) spacedStyleCalls)) []).buf
      = lit "\n<p style='color:red;;'></p>\n" := by
  decide

/-! ## What MarshalHTML writes for one attribute -/

theorem MarshalHTML_renderRest (b : HTMLTagBuilder HTMLComponent) (buf : Bytes) :
    MarshalHTML (.tag b) buf
      = renderRest b (materializedAttrs b) (buf ++ [10, 60] ++ b.tag) := by
  rw [MarshalHTML_tag]
  rfl

theorem renderRest_congr (b : HTMLTagBuilder HTMLComponent) (l1 l2 : List tagAttr)
    (s1 s2 : Bytes) (h : writeAttrs l1 s1 = writeAttrs l2 s2) :
    renderRest b l1 s1 = renderRest b l2 s2 := by
  unfold renderRest
  rw [h]

theorem writeAttrs_at (before after : List tagAttr) (a : tagAttr) (s out : Bytes)
    (hbefore : ∀ x ∈ before, ∀ err, x.value ≠ .other (.fail err))
    (hstep : ∀ s2, writeAttrs (a :: after) s2 = writeAttrs after (s2 ++ out)) :
    writeAttrs (before ++ a :: after) s
      = writeAttrs after (s ++ (writeAttrs before []).1 ++ out) := by
  have h0 := writeAttrs_ok before [] hbefore
  rw [writeAttrs_append, writeAttrs_buf before s, h0]
  exact hstep _

theorem writeAttrs_skip (before after : List tagAttr) (a : tagAttr) (s : Bytes)
    (hstep : ∀ s2, writeAttrs (a :: after) s2 = writeAttrs after s2) :
    writeAttrs (before ++ a :: after) s = writeAttrs (before ++ after) s := by
  rw [writeAttrs_append, writeAttrs_append]
  cases writeAttrs before s with
  | mk buf1 e =>
    cases e with
    | some p => rfl
    | none => exact hstep _

theorem writeAttrs_step_bool (k : Bytes) (v : Bool) (after : List tagAttr) (s : Bytes) :
    writeAttrs (⟨k, .bool v⟩ :: after) s
      = writeAttrs after (s ++ (if v then [32] ++ appendEscapeAttr [] k else [])) := by
  cases v with
  | true =>
    simp only [writeAttrs, coerce]
    rw [appendEscapeAttr_buf]
    simp
  | false => simp [writeAttrs, coerce]

theorem writeAttrs_step_text (k : Bytes) (v : AttrValue) (c : Coerced)
    (after : List tagAttr) (s : Bytes) (hv : coerce v = .ok c) (hb : c.isBool = false) :
    writeAttrs (⟨k, v⟩ :: after) s
      = writeAttrs after
          (s ++ (if c.val = [] then []
                 else [32] ++ appendEscapeAttr [] k ++ [61, 39]
                        ++ appendEscapeAttr [] c.val ++ [39])) := by
  simp only [writeAttrs, hv, hb]
  by_cases hval : c.val = []
  · simp [hval]
  · have hlen : ¬ c.val.length = 0 := by
      simpa [List.length_eq_zero] using hval
    simp only [hlen, hval, if_false, false_and, Bool.false_eq_true, not_false_eq_true,
      and_true]
    rw [appendEscapeAttr_buf (s ++ [32]), appendEscapeAttr_buf (_ ++ [61, 39])]
    simp

theorem attrBytes_at (b : HTMLTagBuilder HTMLComponent) (before after : List tagAttr)
    (a : tagAttr) (out : Bytes) (hsplit : materializedAttrs b = before ++ a :: after)
    (hbefore : ∀ x ∈ before, ∀ err, x.value ≠ .other (.fail err))
    (hstep : ∀ s2, writeAttrs (a :: after) s2 = writeAttrs after (s2 ++ out)) :
    attrBytes b = (writeAttrs before []).1 ++ out ++ (writeAttrs after []).1 := by
  unfold attrBytes
  rw [hsplit, writeAttrs_at before after a [] out hbefore hstep, writeAttrs_buf]
  simp

theorem MarshalHTML_at (b : HTMLTagBuilder HTMLComponent) (buf : Bytes)
    (before after : List tagAttr) (a : tagAttr) (out : Bytes)
    (hsplit : materializedAttrs b = before ++ a :: after)
    (hbefore : ∀ x ∈ before, ∀ err, x.value ≠ .other (.fail err))
    (hstep : ∀ s2, writeAttrs (a :: after) s2 = writeAttrs after (s2 ++ out)) :
    MarshalHTML (.tag b) buf
      = renderRest b after
          (buf ++ [10, 60] ++ b.tag ++ (writeAttrs before []).1 ++ out) := by
  rw [MarshalHTML_renderRest, hsplit]
  exact renderRest_congr b _ _ _ _ (writeAttrs_at before after a _ out hbefore hstep)

/-- C2, on the list the loop walks: let the attribute list of an element, once class and
style are materialised, be `before`, the entry of key `k` with a boolean value, `after`,
no value in `before` being one on which `JSONString` panics.  Then `MarshalHTML` writes
newline, `<`, the tag and the bytes of `before`, then for this attribute exactly a space
and the escaped key when the value is true and nothing when it is false, and goes on with
the entries `after`.  An entry whose value is the boolean false contributes nothing
wherever it stands, whatever stands before it: `MarshalHTML` does what the loop does on
the list without that entry.  So
`Attr("disabled", true, "checked", false, "name", "")` on an `input` renders
`<input disabled>`. -/
theorem C2_bool_attr (b : HTMLTagBuilder HTMLComponent) (buf : Bytes)
    (before after : List tagAttr) (k : Bytes) (v : Bool)
    (hsplit : materializedAttrs b = before ++ ⟨k, .bool v⟩ :: after)
    (hbefore : ∀ x ∈ before, ∀ err, x.value ≠ .other (.fail err)) :
    MarshalHTML (.tag b) buf
      = renderRest b after
          (buf ++ [10, 60] ++ b.tag ++ (writeAttrs before []).1
            ++ (if v then [32] ++ appendEscapeAttr [] k else [])) ∧
    attrBytes b
      = (writeAttrs before []).1 ++ (if v then [32] ++ appendEscapeAttr [] k else [])
          ++ (writeAttrs after []).1 ∧
    (∀ (b2 : HTMLTagBuilder HTMLComponent) (buf2 : Bytes) (l1 l2 : List tagAttr),
      materializedAttrs b2 = l1 ++ ⟨k, .bool false⟩ :: l2 →
      MarshalHTML (.tag b2) buf2 = renderRest b2 (l1 ++ l2) (buf2 ++ [10, 60] ++ b2.tag)) ∧
    (MarshalHTML (.tag boolInput) []).buf = lit "\n<input disabled></input>\n" := by
  refine ⟨?_, ?_, ?_, by decide⟩
  · exact MarshalHTML_at b buf before after _ _ hsplit hbefore
      (fun s2 => writeAttrs_step_bool k v after s2)
  · exact attrBytes_at b before after _ _ hsplit hbefore
      (fun s2 => writeAttrs_step_bool k v after s2)
  · intro b2 buf2 l1 l2 h2
    rw [MarshalHTML_renderRest, h2]
    refine renderRest_congr b2 _ _ _ _ (writeAttrs_skip l1 l2 _ _ (fun s2 => ?_))
    have := writeAttrs_step_bool k false l2 s2
    simpa using this

/-- Witness of C2: the `input` with `disabled` true, `checked` false and an empty name,
once at the entry `checked`, which stands after `disabled`, and once at the entry
`disabled`, which stands first. -/
theorem C2_bool_attr_witness :
    (MarshalHTML (.tag boolInput) (lit "x")).buf = lit "x\n<input disabled></input>\n" ∧
    attrBytes boolInput = lit " disabled" ∧
    (MarshalHTML (.tag boolInput) []).buf = lit "\n<input disabled></input>\n" :=
  have h := C2_bool_attr boolInput (lit "x") [⟨lit "disabled", .bool true⟩]
    [⟨lit "name", .str []⟩] (lit "checked") false (by decide)
    (by intro x hx err; simp at hx; subst hx; simp)
  have ht := C2_bool_attr boolInput [] []
    [⟨lit "checked", .bool false⟩, ⟨lit "name", .str []⟩] (lit "disabled") true (by decide)
    (by intro x hx; simp at hx)
  ⟨(congrArg Rendered.buf h.1).trans (by decide), h.2.1.trans (by decide),
    (congrArg Rendered.buf ht.1).trans (by decide)⟩

/-- C2 as stated fails: in `Tag("input").Attr("data", v, "disabled", true)`, `v` being a
value on which `sonic.Marshal` fails, the value stored for `disabled` is true, yet the call
panics after `\n<input` and writes nothing for it; and in
`Tag("p").Attr("class", true).Class("a")` the value stored for `class` is true, yet the
attribute is written as `class='a'`. -/
theorem C2_counterexample :
    lookupAttr (lit "disabled") failerThenDisabled.attrs = some (.bool true) ∧
    (MarshalHTML (.tag failerThenDisabled) []).buf = lit "\n<input" ∧
    (MarshalHTML (.tag failerThenDisabled) []).exit = .panic (.error ⟨lit "failure"⟩) ∧
    lookupAttr (lit "class") classTrueThenClass.attrs = some (.bool true) ∧
    (MarshalHTML (.tag classTrueThenClass) []).buf = lit "\n<p class='a'></p>\n" := by
  decide

/-- C3, on the list the loop walks: let the attribute list of an element, once class and
style are materialised, be `before`, the entry of key `k` with a value that is not a
boolean and has the coerced text `val`, `after`, no value in `before` being one on which
`JSONString` panics.  Then `MarshalHTML` writes newline, `<`, the tag and the bytes of
`before`, then for this attribute nothing when `val` is empty (neither the key nor `=''`)
and otherwise a space, the escaped key, `='`, the escaped text and `'`, and goes on with
the entries `after`.  An entry whose text is empty contributes nothing wherever it stands,
whatever stands before it: `MarshalHTML` does what the loop does on the list without that
entry.  The empty string, the empty
byte slice and the empty rune slice coerce to the empty text; the test "case 2" of
tag_test.go, whose `style` is the empty string, renders no style attribute. -/
theorem C3_empty_value_dropped (b : HTMLTagBuilder HTMLComponent) (buf : Bytes)
    (before after : List tagAttr) (k : Bytes) (v : AttrValue) (c : Coerced)
    (hsplit : materializedAttrs b = before ++ ⟨k, v⟩ :: after)
    (hbefore : ∀ x ∈ before, ∀ err, x.value ≠ .other (.fail err))
    (hv : coerce v = .ok c) (hb : c.isBool = false) :
    MarshalHTML (.tag b) buf
      = renderRest b after
          (buf ++ [10, 60] ++ b.tag ++ (writeAttrs before []).1
            ++ (if c.val = [] then []
                else [32] ++ appendEscapeAttr [] k ++ [61, 39]
                       ++ appendEscapeAttr [] c.val ++ [39])) ∧
    attrBytes b
      = (writeAttrs before []).1
          ++ (if c.val = [] then []
              else [32] ++ appendEscapeAttr [] k ++ [61, 39]
                     ++ appendEscapeAttr [] c.val ++ [39])
          ++ (writeAttrs after []).1 ∧
    (c.val = [] →
      ∀ (b2 : HTMLTagBuilder HTMLComponent) (buf2 : Bytes) (l1 l2 : List tagAttr),
      materializedAttrs b2 = l1 ++ ⟨k, v⟩ :: l2 →
      MarshalHTML (.tag b2) buf2 = renderRest b2 (l1 ++ l2) (buf2 ++ [10, 60] ++ b2.tag)) ∧
    coerce (.str []) = .ok ⟨[], false, false⟩ ∧
    coerce (.bytes []) = .ok ⟨[], false, false⟩ ∧
    coerce (.runes []) = .ok ⟨[], false, false⟩ ∧
    (MarshalHTML (divOf case2Inner) []).buf
      = lit "\n<div>\n<div class='menu' id='menu-id'>Hello</div>\n</div>\n" := by
  refine ⟨?_, ?_, ?_, rfl, rfl, rfl, by decide⟩
  · exact MarshalHTML_at b buf before after _ _ hsplit hbefore
      (fun s2 => writeAttrs_step_text k v c after s2 hv hb)
  · exact attrBytes_at b before after _ _ hsplit hbefore
      (fun s2 => writeAttrs_step_text k v c after s2 hv hb)
  · intro hval b2 buf2 l1 l2 h2
    rw [MarshalHTML_renderRest, h2]
    refine renderRest_congr b2 _ _ _ _ (writeAttrs_skip l1 l2 _ _ (fun s2 => ?_))
    have := writeAttrs_step_text k v c l2 s2 hv hb
    simpa [hval] using this

/-- Witness of C3: the inner `div` of the test "case 2", whose attribute list is `class`,
`id`, `style`, the last with the empty string: the `id` is written, the `style` is not. -/
theorem C3_empty_value_dropped_witness :
    (MarshalHTML (.tag case2Inner) []).buf
      = lit "\n<div class='menu' id='menu-id'>Hello</div>\n" ∧
    attrBytes case2Inner = lit " class='menu' id='menu-id'" :=
  have h1 := C3_empty_value_dropped case2Inner [] [⟨lit "class", .str (lit "menu")⟩]
    [⟨lit "style", .str []⟩] (lit "id") (.str (lit "menu-id")) ⟨lit "menu-id", false, false⟩
    (by decide) (by intro x hx err; simp at hx; subst hx; simp) rfl rfl
  have h2 := C3_empty_value_dropped case2Inner []
    [⟨lit "class", .str (lit "menu")⟩, ⟨lit "id", .str (lit "menu-id")⟩] []
    (lit "style") (.str []) ⟨[], false, false⟩
    (by decide)
    (by
      intro x hx err
      simp at hx
      rcases hx with hx | hx <;> subst hx <;> simp)
    rfl rfl
  ⟨(congrArg Rendered.buf h1.1).trans (by decide), h2.2.1.trans (by decide)⟩

/-- C3 as stated fails: in `Tag("p").Attr("class", "").Class("a")` the value stored for
`class` is the empty string, yet the attribute is written, as `class='a'`. -/
theorem C3_counterexample :
    lookupAttr (lit "class") classEmptyThenClass.attrs = some (.str []) ∧
    (MarshalHTML (.tag classEmptyThenClass) []).buf = lit "\n<p class='a'></p>\n" ∧
    (MarshalHTML (.tag classEmptyThenClass) []).buf ≠ lit "\n<p></p>\n" := by
  decide

/-- C12, on the list the loop walks: let the attribute list of an element, once class and
style are materialised, be `before`, the entry of key `k` whose value is of no type of the
type switch and for which `sonic.Marshal` gives the non-empty text `j`, `after`, no value
in `before` being one on which `JSONString` panics.  Then `MarshalHTML` writes newline,
`<`, the tag and the bytes of `before`, then for this attribute a space, the escaped key,
`='`, the text `j` with every apostrophe replaced by `&#39;` and every other byte
unchanged, and `'`, and goes on with the entries `after`. -/
theorem C12_json_value (b : HTMLTagBuilder HTMLComponent) (buf : Bytes)
    (before after : List tagAttr) (k j : Bytes)
    (hsplit : materializedAttrs b = before ++ ⟨k, .other (.json j)⟩ :: after)
    (hbefore : ∀ x ∈ before, ∀ err, x.value ≠ .other (.fail err))
    (hj : j ≠ []) :
    MarshalHTML (.tag b) buf
      = renderRest b after
          (buf ++ [10, 60] ++ b.tag ++ (writeAttrs before []).1
            ++ ([32] ++ appendEscapeAttr [] k ++ [61, 39]
                ++ j.flatMap (fun c => if c = 39 then [38, 35, 51, 57, 59] else [c])
                ++ [39])) ∧
    attrBytes b
      = (writeAttrs before []).1
          ++ ([32] ++ appendEscapeAttr [] k ++ [61, 39]
              ++ j.flatMap (fun c => if c = 39 then [38, 35, 51, 57, 59] else [c]) ++ [39])
          ++ (writeAttrs after []).1 ∧
    coerce (.other (.json j)) = .ok ⟨j, false, false⟩ := by
  have hesc : appendEscapeAttr [] j
      = j.flatMap (fun c => if c = 39 then [38, 35, 51, 57, 59] else [c]) := by
    rw [appendEscapeAttr_eq]; rfl
  have hstep : ∀ s2, writeAttrs (⟨k, .other (.json j)⟩ :: after) s2
      = writeAttrs after
          (s2 ++ ([32] ++ appendEscapeAttr [] k ++ [61, 39]
            ++ j.flatMap (fun c => if c = 39 then [38, 35, 51, 57, 59] else [c])
            ++ [39])) := by
    intro s2
    have := writeAttrs_step_text k (.other (.json j)) ⟨j, false, false⟩ after s2 rfl rfl
    rw [this, ← hesc]
    simp [hj]
  exact ⟨MarshalHTML_at b buf before after _ _ hsplit hbefore hstep,
    attrBytes_at b before after _ _ hsplit hbefore hstep, rfl⟩

/-- Witness of C12: a `p` with an id and then a mapping whose JSON text holds an
apostrophe. -/
theorem C12_json_value_witness :
    (MarshalHTML (.tag jsonData) []).buf
      = lit "\n<p id='x' data='\x7b\"a\":\"it&#39;s\"\x7d'></p>\n" :=
  have h := C12_json_value jsonData [] [⟨lit "id", .str (lit "x")⟩] [] (lit "data")
    (lit "\x7b\"a\":\"it's\"\x7d") (by decide)
    (by intro x hx err; simp at hx; subst hx; simp) (by decide)
  (congrArg Rendered.buf h.1).trans (by decide)

/-- C12 as stated fails: in `Tag("p").Attr("bad", v, "data", w)`, `sonic.Marshal` failing
on `v` and giving the text `[1]` for `w`, nothing is written for `data`: the call panics
after `\n<p`. -/
theorem C12_counterexample :
    lookupAttr (lit "data") failerThenData.attrs = some (.other (.json (lit "[1]"))) ∧
    (MarshalHTML (.tag failerThenData) []).buf = lit "\n<p" ∧
    (MarshalHTML (.tag failerThenData) []).exit = .panic (.error ⟨lit "failure"⟩) := by
  decide

end Htmlgo
